import Mathlib

/-!
Verification development for the Skull multiplayer game server
(`server.js`, richer variant).  The per-room game engine is shallowly
embedded: JavaScript room/player records become Lean structures, each
socket/timer handler becomes a pure function on the room state, and the
serialized event loop becomes an inductive step relation.

Modelling notes, applied uniformly:
* JavaScript numbers that hold seat indices, bids and counters are
  embedded as `Int` (sentinel `-1` kept as in the source); seat indices
  that the socket layer has already resolved via `playerIndex` (which it
  checks for `-1`) are passed as `Nat`.
* `Math.random()`-driven choices are embedded by passing the drawn index
  as an explicit parameter (`rand`), quantified in theorems.
* The bounded text log, chat handling and socket emissions are outside
  the claims and are omitted from the state.
* `setTimeout` bookkeeping (`turnTimer`/`turnDeadline`) is modelled in a
  dedicated scheduler section; guarded timeout callbacks whose effect is
  exactly a player action (auto-place, auto-open-bid-of-1) are subsumed
  by the corresponding action steps, while the bidding auto-pass and the
  unguarded presentation-pause continuations (`penalize`,
  `challengeSuccess`, the deferred `startRound`) appear explicitly.
* Array accesses that would throw in JavaScript on states the server
  cannot reach (e.g. `room.players[-1]`) are embedded as total lookups
  returning the unchanged state; each such spot is commented.
-/

inductive Card where
  | rose
  | skull
deriving DecidableEq, Repr

inductive Phase where
  | lobby        -- JS `null`
  | placing
  | bidding
  | flipping
  | flipResult   -- JS 'flip_result'
  | penalty
  | gameover
deriving DecidableEq, Repr

structure Player where
  id : String
  name : String
  cards : List Card
  hand : List Card
  stack : List Card
  wins : Nat
  eliminated : Bool
  passed : Bool
  connected : Bool
  colorIndex : Nat
deriving DecidableEq, Repr

structure Reveal where
  playerIndex : Nat
  card : Card
  playerName : String
deriving DecidableEq, Repr

structure Room where
  code : String
  players : List Player
  hostId : String
  started : Bool
  phase : Phase
  currentPlayer : Int
  currentBid : Int
  highestBidder : Int
  flipsRemaining : Int
  totalCoastersOnTable : Int
  roundNum : Nat
  firstPlacement : Bool
  nextRoundStarter : Int
  penaltyPlayer : Int
  revealedCards : List Reveal
deriving DecidableEq, Repr

/-- Deferred continuations the engine schedules with `setTimeout`
(presentation pauses): `penalize(flipperIdx, targetPlayerIdx)` after a
skull reveal, `challengeSuccess(flipperIdx)` after the last rose, and the
delayed `startRound` after a penalty or a won challenge. -/
inductive Pending where
  | penalize (loser skuller : Nat)
  | challenge (p : Nat)
  | nextRound
deriving DecidableEq, Repr

/-- A room together with its queue of still-pending deferred continuations. -/
structure Sys where
  room : Room
  pending : List Pending
deriving DecidableEq, Repr

/-! ### Indexed list helpers (self-contained, with the lemmas we need) -/

/-- `l.map f` where `f` also receives the element's index, starting at `i0`. -/
def mapIdxFrom (f : Nat → α → β) : Nat → List α → List β
  | _, [] => []
  | i, a :: as => f i a :: mapIdxFrom f (i + 1) as

/-- JS `arr.map((x, i) => ...)`. -/
def pmapIdx (f : Nat → α → β) (l : List α) : List β :=
  mapIdxFrom f 0 l

/-- In-place update of the element at index `i` (identity when out of range),
mirroring a JS field assignment on `arr[i]`. -/
def modifyP (l : List α) (i : Nat) (f : α → α) : List α :=
  match l, i with
  | [], _ => []
  | a :: as, 0 => f a :: as
  | a :: as, n + 1 => a :: modifyP as n f

/-- JS `arr.filter((p, i) => cond).length`, counting from index `i0`. -/
def countIdxFrom (f : Nat → α → Bool) : Nat → List α → Nat
  | _, [] => 0
  | i, a :: as => (if f i a then 1 else 0) + countIdxFrom f (i + 1) as

/-! ### Room helpers (from the source's helper section) -/

/-- `playerIndex`: `room.players.findIndex(p => p.id === socketId)`. -/
def playerIndex (r : Room) (socketId : String) : Int :=
  match r.players.findIdx? (fun p => p.id = socketId) with
  | some n => (n : Int)
  | none => -1

/-- Total lookup of a seat by a raw (possibly negative / out-of-range)
JS index. -/
def rget (r : Room) (i : Int) : Option Player :=
  if 0 ≤ i then r.players[i.toNat]? else none

/-- `activePlayers(room).length`. -/
def aliveCount (r : Room) : Nat :=
  (r.players.filter (fun p => !p.eliminated)).length

/-- `findNextActive`: first non-eliminated seat scanning `start, start+1, ...`
(wrap-around), `-1` if none. -/
def findNextActive (r : Room) (start : Nat) : Int :=
  let n := r.players.length
  match (List.range n).find? (fun i =>
      match r.players[(start + i) % n]? with
      | some p => !p.eliminated
      | none => false) with
  | some i => (((start + i) % n : Nat) : Int)
  | none => -1

/-- `nextActiveUnpassed`: first non-eliminated, non-passed seat scanning
`start+1, ..., start+n` (wrap-around), `-1` if none. -/
def nextActiveUnpassed (r : Room) (start : Nat) : Int :=
  let n := r.players.length
  match (List.range n).find? (fun k =>
      match r.players[(start + k + 1) % n]? with
      | some p => !p.eliminated && !p.passed
      | none => false) with
  | some k => (((start + k + 1) % n : Nat) : Int)
  | none => -1

/-- `countOnTable`: total number of coasters on all stacks (as a JS number). -/
def countOnTable (r : Room) : Int :=
  (r.players.map (fun p => (p.stack.length : Int))).sum

/-- The seats counted by `checkBiddingEnd`:
`players.filter((p, i) => !p.eliminated && !p.passed && i !== highestBidder)`. -/
def activeNonHB (r : Room) : Nat :=
  countIdxFrom
    (fun i p => !p.eliminated && !p.passed && ((i : Int) != r.highestBidder))
    0 r.players

/-! ### Game logic (from the source's game-logic section) -/

/-- `gameOver`: the state effect is fixing the phase (the winner's index is
only used for the emitted notice and the log). -/
def gameOver (r : Room) (_winnerIdx : Int) : Room :=
  { r with phase := .gameover }

/-- `startFlipping`. -/
def startFlipping (r : Room) : Room :=
  { r with
    phase := .flipping
    flipsRemaining := r.currentBid
    currentPlayer := r.highestBidder
    revealedCards := [] }

/-- `checkBiddingEnd`: recompute the cached table count, then end bidding
when nobody but the highest bidder is still in, or the bid reached the
table count. -/
def checkBiddingEnd (r : Room) : Room :=
  let r := { r with totalCoastersOnTable := countOnTable r }
  if activeNonHB r = 0 ∨ r.totalCoastersOnTable ≤ r.currentBid then
    startFlipping r
  else
    r

/-- `startRound`.  The source reads `players[nextRoundStarter].eliminated`
only after checking `nextRoundStarter >= 0`; the (unreachable) case of a
non-negative index beyond the list is embedded as the rotation fallback. -/
def chooseStarter (r : Room) : Int :=
  match rget r r.nextRoundStarter with
  | some p =>
    if !p.eliminated then r.nextRoundStarter
    else findNextActive r ((r.roundNum - 1) % r.players.length)
  | none => findNextActive r ((r.roundNum - 1) % r.players.length)

def startRound (r : Room) : Room :=
  let r := { r with
    roundNum := r.roundNum + 1
    phase := Phase.placing
    currentBid := 0
    highestBidder := -1
    flipsRemaining := 0
    totalCoastersOnTable := 0
    firstPlacement := true
    revealedCards := []
    players := r.players.map (fun p : Player =>
      if p.eliminated then p
      else { p with hand := p.cards, stack := [], passed := false }) }
  { r with currentPlayer := chooseStarter r, nextRoundStarter := -1 }

/-- `startGame`: deal 3 roses + 1 skull to every seat, reset wins and
eliminations, then start round 1. -/
def startGame (r : Room) : Room :=
  startRound { r with
    started := true
    roundNum := 0
    players := r.players.map (fun p =>
      { p with cards := [.rose, .rose, .rose, .skull], wins := 0, eliminated := false }) }

/-- `advancePlacing`: move the turn to the next non-eliminated, non-passed
seat (falling back to the next non-eliminated seat from 0).  The timer /
forced-bid scheduling it performs is modelled by the guarded timeout
steps, whose effects coincide with player actions. -/
def advancePlacing (r : Room) : Room :=
  let next0 := nextActiveUnpassed r r.currentPlayer.toNat
  let next := if next0 = -1 then findNextActive r 0 else next0
  { r with currentPlayer := next }

/-- `handlePlace(room, pIdx, cardIndex)`.  `pIdx` is the seat resolved by
the socket layer; `cardIndex` is client-controlled.  The `none` lookup
branch is unreachable for socket-resolved seats. -/
def handlePlace (r : Room) (pIdx : Nat) (cardIndex : Int) : Room :=
  if r.phase ≠ Phase.placing then r
  else if r.currentPlayer ≠ (pIdx : Int) then r
  else
    match r.players[pIdx]? with
    | none => r
    | some p =>
      if cardIndex < 0 ∨ (p.hand.length : Int) ≤ cardIndex then r
      else
        match p.hand[cardIndex.toNat]? with
        | none => r
        | some card =>
          let r := { r with players := modifyP r.players pIdx (fun q =>
            { q with hand := q.hand.eraseIdx cardIndex.toNat,
                     stack := q.stack ++ [card] }) }
          let r := { r with totalCoastersOnTable := countOnTable r }
          let allPlaced := r.players.all (fun pl => pl.eliminated || !pl.stack.isEmpty)
          let r := if allPlaced then { r with firstPlacement := false } else r
          advancePlacing r

/-- `handleStartBid(room, pIdx, amount)`.  `players_passed_set_bidder` in
the source only re-assigns `passed := false` to the bidder after the global
reset and is therefore a no-op. -/
def handleStartBid (r : Room) (pIdx : Nat) (amount : Int) : Room :=
  if r.phase ≠ Phase.placing then r
  else if r.currentPlayer ≠ (pIdx : Int) then r
  else if r.firstPlacement then r
  else
    let total := countOnTable r
    let bidAmount := max 1 (min (if amount = 0 then 1 else amount) total)
    let r := { r with
      totalCoastersOnTable := total
      phase := Phase.bidding
      currentBid := bidAmount
      highestBidder := (pIdx : Int)
      players := r.players.map (fun pl => { pl with passed := false })
      currentPlayer := -1 }
    checkBiddingEnd r

/-- `handleRaiseBid(room, pIdx, amount)`.  Note the source recomputes the
cached table count before rejecting an out-of-bounds amount. -/
def handleRaiseBid (r : Room) (pIdx : Nat) (amount : Int) : Room :=
  if r.phase ≠ Phase.bidding then r
  else
    match r.players[pIdx]? with
    | none => r
    | some p =>
      if p.passed || p.eliminated then r
      else if (pIdx : Int) = r.highestBidder then r
      else
        let r := { r with totalCoastersOnTable := countOnTable r }
        if amount ≤ r.currentBid ∨ r.totalCoastersOnTable < amount then r
        else
          checkBiddingEnd { r with currentBid := amount, highestBidder := (pIdx : Int) }

/-- `handlePass(room, pIdx)`. -/
def handlePass (r : Room) (pIdx : Nat) : Room :=
  if r.phase ≠ Phase.bidding then r
  else
    match r.players[pIdx]? with
    | none => r
    | some p =>
      if p.passed || p.eliminated then r
      else if (pIdx : Int) = r.highestBidder then r
      else
        checkBiddingEnd { r with players := modifyP r.players pIdx (fun q => { q with passed := true }) }

/-- The bid-deadline callback: on expiry, auto-pass every non-eliminated,
non-passed seat other than the highest bidder, then re-check termination;
a firing outside `bidding` is a no-op. -/
def autopassAll (r : Room) : Room :=
  { r with players := pmapIdx (fun i p =>
      if !p.eliminated && !p.passed && ((i : Int) != r.highestBidder)
      then { p with passed := true } else p) r.players }

def fireBidTimer (r : Room) : Room :=
  if r.phase ≠ Phase.bidding then r else checkBiddingEnd (autopassAll r)

/-- `handleFlip(room, flipperIdx, targetPlayerIdx)`; `targetPlayerIdx` is
raw client input (`!target` rejects out-of-range).  On a skull the phase
moves to `flip_result` and `penalize` is scheduled; on the last rose,
`challengeSuccess` is scheduled. -/
def handleFlip (r : Room) (flipperIdx : Nat) (targetPlayerIdx : Int) :
    Room × List Pending :=
  if r.phase ≠ Phase.flipping then (r, [])
  else if r.flipsRemaining ≤ 0 then (r, [])
  else if (flipperIdx : Int) ≠ r.highestBidder then (r, [])
  else if r.currentPlayer ≠ (flipperIdx : Int) then (r, [])
  else
    match rget r targetPlayerIdx with
    | none => (r, [])
    | some target =>
      if target.eliminated then (r, [])
      else if target.stack.isEmpty then (r, [])
      else
        match r.players[flipperIdx]? with
        | none => (r, [])  -- unreachable: seat resolved by the socket layer
        | some flipper =>
          if targetPlayerIdx ≠ (flipperIdx : Int) ∧ ¬flipper.stack.isEmpty then (r, [])
          else
            match target.stack.getLast? with
            | none => (r, [])  -- unreachable: the empty stack was rejected above
            | some card =>
              let popped := modifyP r.players targetPlayerIdx.toNat
                (fun q => { q with stack := q.stack.dropLast })
              let r := { r with players := popped }
              let r := { r with
                totalCoastersOnTable := countOnTable r
                flipsRemaining := r.flipsRemaining - 1
                revealedCards := r.revealedCards ++
                  [⟨targetPlayerIdx.toNat, card, target.name⟩] }
              if card = Card.skull then
                ({ r with phase := .flipResult }, [.penalize flipperIdx targetPlayerIdx.toNat])
              else if r.flipsRemaining ≤ 0 then
                ({ r with phase := .flipResult }, [.challenge flipperIdx])
              else
                (r, [])

/-- `challengeSuccess(room, pIdx)` (fired after the presentation pause on a
fully-rose flip sequence): one win point, the bidder starts the next round,
and either the game ends at 2 wins or the next round is scheduled. -/
def challengeSuccess (r : Room) (pIdx : Nat) : Room × List Pending :=
  match r.players[pIdx]? with
  | none => (r, [])  -- unreachable: the index was captured from a valid seat
  | some p =>
    let p' := { p with wins := p.wins + 1 }
    let r := { r with players := modifyP r.players pIdx (fun _ => p'),
                      nextRoundStarter := (pIdx : Int) }
    if 2 ≤ p'.wins then (gameOver r (pIdx : Int), [])
    else (r, [.nextRound])

/-- `doCardRemoval(room, loserIdx, chosenIdx)`: discard one physical token
(the chosen one when in range, otherwise the `rand`-drawn one), eliminate
on reaching zero tokens, and either end the game or schedule the next
round.  `rand` stands for the `Math.random()` draw. -/
def doCardRemoval (r : Room) (loserIdx : Nat) (chosenIdx : Int) (rand : Nat) :
    Room × List Pending :=
  match r.players[loserIdx]? with
  | none => (r, [])  -- unreachable: the index was captured from a valid seat
  | some p =>
    let p1 :=
      if 0 < p.cards.length then
        let removeIdx :=
          if 0 ≤ chosenIdx ∧ chosenIdx < (p.cards.length : Int)
          then chosenIdx.toNat else rand % p.cards.length
        { p with cards := p.cards.eraseIdx removeIdx }
      else p
    let p2 :=
      if p1.cards.length = 0
      then { p1 with eliminated := true, hand := [], stack := [] }
      else p1
    let r := { r with players := modifyP r.players loserIdx (fun _ => p2),
                      penaltyPlayer := -1 }
    if aliveCount r ≤ 1 then (gameOver r 0, [])
    else (r, [.nextRound])

/-- `penalize(room, loserIdx, skullerIdx)` (fired after the presentation
pause on a skull reveal): the skull's owner — or, on a self-skull, the
bidder — starts the next round; a self-skull with more than one token
left opens the explicit `penalty` discard choice, every other case
removes a token at once. -/
def penalize (r : Room) (loserIdx skullerIdx : Nat) (rand : Nat) :
    Room × List Pending :=
  let r := { r with nextRoundStarter :=
    if loserIdx = skullerIdx then (loserIdx : Int) else (skullerIdx : Int) }
  match r.players[loserIdx]? with
  | none => (r, [])  -- unreachable: the index was captured from a valid seat
  | some p =>
    if loserIdx = skullerIdx ∧ 1 < p.cards.length then
      ({ r with phase := .penalty, penaltyPlayer := (loserIdx : Int) }, [])
    else
      doCardRemoval r loserIdx (-1) rand

/-- `handlePenaltyDiscard(room, pIdx, cardIndex)`. -/
def handlePenaltyDiscard (r : Room) (pIdx : Nat) (cardIndex : Int) :
    Room × List Pending :=
  if r.phase ≠ Phase.penalty then (r, [])
  else if r.penaltyPlayer ≠ (pIdx : Int) then (r, [])
  else
    match r.players[pIdx]? with
    | none => (r, [])  -- unreachable: seat resolved by the socket layer
    | some p =>
      if cardIndex < 0 ∨ (p.cards.length : Int) ≤ cardIndex then (r, [])
      else doCardRemoval r pIdx cardIndex 0

/-- The source's disconnect handler on a started room: the seat is only
marked disconnected. -/
def markDisconnected (r : Room) (pIdx : Nat) : Room :=
  { r with players := modifyP r.players pIdx (fun p => { p with connected := false }) }

/-- The reconnection path of the `joinRoom` handler on a started room:
rebind the seat to the new connection. -/
def rebindSeat (r : Room) (pIdx : Nat) (sid : String) : Room :=
  { r with players := modifyP r.players pIdx (fun p =>
      { p with id := sid, connected := true }) }

/-! ### The serialized event loop of a started game

One step per externally-triggerable event: the six in-game player actions
(seat already resolved to a valid index by the socket layer), the
bid-deadline auto-pass, the firing of a scheduled presentation-pause
continuation, and the connection-flag events.  Placement-deadline
auto-actions are `handlePlace _ _ 0` / `handleStartBid _ _ 1` behind
guards that re-check exactly what those handlers re-check, so they are
subsumed by the action steps. -/

inductive Step : Sys → Sys → Prop where
  | place (s : Sys) (i : Nat) (c : Int) (h : i < s.room.players.length) :
      Step s ⟨handlePlace s.room i c, s.pending⟩
  | startBid (s : Sys) (i : Nat) (amt : Int) (h : i < s.room.players.length) :
      Step s ⟨handleStartBid s.room i amt, s.pending⟩
  | raiseBid (s : Sys) (i : Nat) (amt : Int) (h : i < s.room.players.length) :
      Step s ⟨handleRaiseBid s.room i amt, s.pending⟩
  | pass (s : Sys) (i : Nat) (h : i < s.room.players.length) :
      Step s ⟨handlePass s.room i, s.pending⟩
  | flip (s : Sys) (i : Nat) (t : Int) (h : i < s.room.players.length) :
      Step s ⟨(handleFlip s.room i t).1, s.pending ++ (handleFlip s.room i t).2⟩
  | penaltyDiscard (s : Sys) (i : Nat) (c : Int) (h : i < s.room.players.length) :
      Step s ⟨(handlePenaltyDiscard s.room i c).1,
              s.pending ++ (handlePenaltyDiscard s.room i c).2⟩
  | bidTimeout (s : Sys) :
      Step s ⟨fireBidTimer s.room, s.pending⟩
  | firePenalize (s : Sys) (l k rand : Nat)
      (hmem : Pending.penalize l k ∈ s.pending) :
      Step s ⟨(penalize s.room l k rand).1,
              (s.pending.erase (.penalize l k)) ++ (penalize s.room l k rand).2⟩
  | fireChallenge (s : Sys) (i : Nat)
      (hmem : Pending.challenge i ∈ s.pending) :
      Step s ⟨(challengeSuccess s.room i).1,
              (s.pending.erase (.challenge i)) ++ (challengeSuccess s.room i).2⟩
  | fireNextRound (s : Sys)
      (hmem : Pending.nextRound ∈ s.pending) :
      Step s ⟨startRound s.room, s.pending.erase .nextRound⟩
  | disconnect (s : Sys) (i : Nat) (h : i < s.room.players.length) :
      Step s ⟨markDisconnected s.room i, s.pending⟩
  | rebind (s : Sys) (i : Nat) (sid : String) (h : i < s.room.players.length) :
      Step s ⟨rebindSeat s.room i sid, s.pending⟩

/-- Game sessions start from a lobby room (as produced by `newRoom` and
the join handler: not started, phase `null`, at least the two players
`startGame` requires, no round-starter carried over), via the host's
`startGame`. -/
def Init (s : Sys) : Prop :=
  ∃ lobby : Room, lobby.started = false ∧ 2 ≤ lobby.players.length ∧
    lobby.phase = Phase.lobby ∧ lobby.nextRoundStarter = -1 ∧
    s = ⟨startGame lobby, []⟩

def Reachable (s : Sys) : Prop :=
  ∃ s0 : Sys, Init s0 ∧ Relation.ReflTransGen Step s0 s


/-! ### State projector (`stateForPlayer`)

The bounded log slice and the `turnDeadline` timestamp are passthrough
fields outside every claim and are omitted, as is the socket emission. -/

structure ProjPlayer where
  name : String
  handCount : Nat
  hand : Option (List Card)   -- JS `null` for every seat but the viewer's
  stackCount : Nat
  totalCards : Nat
  wins : Nat
  eliminated : Bool
  passed : Bool
  connected : Bool
  isMe : Bool
  colorIndex : Nat
deriving DecidableEq, Repr

structure ProjState where
  code : String
  started : Bool
  players : List ProjPlayer
  hostId : String
  isHost : Bool
  myIndex : Int
  phase : Phase
  currentPlayer : Int
  currentBid : Int
  highestBidder : Int
  flipsRemaining : Int
  totalCoastersOnTable : Int
  roundNum : Nat
  firstPlacement : Bool
  revealedCards : List Reveal
  penaltyPlayer : Int
  penaltyCards : Option (List Card)
deriving DecidableEq, Repr

/-- `stateForPlayer(room, socketId)`.  The source reads
`room.players[myIdx].cards` for the penalty view only under
`penaltyPlayer === myIdx`; for the viewers it is ever called for (room
members) that index is valid, which the total `rget` reflects. -/
def stateForPlayer (r : Room) (socketId : String) : ProjState :=
  let myIdx := playerIndex r socketId
  { code := r.code
    started := r.started
    players := pmapIdx (fun i p =>
      { name := p.name
        handCount := p.hand.length
        hand := if (i : Int) = myIdx then some p.hand else none
        stackCount := p.stack.length
        totalCards := p.cards.length
        wins := p.wins
        eliminated := p.eliminated
        passed := p.passed
        connected := p.connected
        isMe := ((i : Int) = myIdx)
        colorIndex := p.colorIndex }) r.players
    hostId := r.hostId
    isHost := socketId = r.hostId
    myIndex := myIdx
    phase := r.phase
    currentPlayer := r.currentPlayer
    currentBid := r.currentBid
    highestBidder := r.highestBidder
    flipsRemaining := r.flipsRemaining
    totalCoastersOnTable := r.totalCoastersOnTable
    roundNum := r.roundNum
    firstPlacement := r.firstPlacement
    revealedCards := r.revealedCards
    penaltyPlayer := r.penaltyPlayer
    penaltyCards :=
      if r.phase = Phase.penalty ∧ r.penaltyPlayer = myIdx
      then (rget r myIdx).map (fun p => p.cards) else none }

/-- Replace one seat's concealed hand (used to state that the projection
for other viewers cannot depend on it). -/
def replaceHand (r : Room) (j : Nat) (h : List Card) : Room :=
  { r with players := modifyP r.players j (fun p => { p with hand := h }) }

/-! ### Lobby join (`joinRoom` socket handler)

The runtime string methods the handler calls (`toUpperCase`, `trim`,
`slice(0, 16)`) are embedded as executable functions on the character
list (ASCII-range uppercasing and whitespace trimming, which covers room
codes and the characters at play here). -/

def jsToUpperChar (c : Char) : Char :=
  if 'a' ≤ c ∧ c ≤ 'z' then Char.ofNat (c.toNat - 32) else c

def jsToUpper (s : String) : String := ⟨s.data.map jsToUpperChar⟩

def jsIsSpace (c : Char) : Bool := c = ' ' || c = '\t' || c = '\n' || c = '\r'

def jsTrim (s : String) : String :=
  ⟨(((s.data.dropWhile jsIsSpace).reverse).dropWhile jsIsSpace).reverse⟩

def jsTake (s : String) (n : Nat) : String := ⟨s.data.take n⟩

inductive JoinOutcome where
  | notFound       -- 'Room not found.'
  | inProgress     -- 'Game already in progress.'
  | full           -- 'Room is full (max 6).'
  | nameTaken      -- 'Name already taken.'
  | joined         -- success
deriving DecidableEq, Repr

/-- `(data.name || '').trim().slice(0, 16) || 'Player'`. -/
def normName (raw : String) : String :=
  let n := jsTake (jsTrim raw) 16
  if n = "" then "Player" else n

def newSeat (sid name : String) (colorIndex : Nat) : Player :=
  { id := sid, name := name, cards := [], hand := [], stack := [],
    wins := 0, eliminated := false, passed := false, connected := true,
    colorIndex := colorIndex }

/-- The body of the join handler once the room is found. -/
def joinRoomCore (room : Room) (name sid : String) : JoinOutcome × Room :=
  if room.started then
    match room.players.findIdx? (fun p => p.name = name && !p.connected) with
    | some j => (.joined, rebindSeat room j sid)
    | none => (.inProgress, room)
  else if 6 ≤ room.players.length then (.full, room)
  else if room.players.any (fun p => p.name = name) then (.nameTaken, room)
  else (.joined, { room with players := room.players ++ [newSeat sid name room.players.length] })

/-- `joinRoom` against the room registry: the supplied code is uppercased
and trimmed before lookup (`(data.code || '').toUpperCase().trim()`). -/
def joinRoom (registry : List (String × Room)) (rawCode rawName sid : String) :
    JoinOutcome × Option Room :=
  match (registry.find? (fun kv => kv.1 = jsTrim (jsToUpper rawCode))).map (fun kv => kv.2) with
  | none => (.notFound, none)
  | some room =>
    let res := joinRoomCore room (normName rawName) sid
    (res.1, some res.2)

/-! ### Turn scheduler (`startTurnTimer` / `clearTurnTimer`)

The JS runtime's set of still-pending `setTimeout` turn deadlines for one
room, plus the room's `turnTimer` handle.  `clearTurnTimer` cancels the
handle's entry (`clearTimeout`); `startTurnTimer` always clears first and
then registers a fresh deadline. -/

inductive TimerJustif where
  /-- a placing-turn deadline, justified by `phase = placing` and the
  captured turn owner (`startRound`'s and `advancePlacing`'s timers) -/
  | placingTurn (seat : Nat)
  /-- the bidding deadline, justified by `phase = bidding` (`startBidTimer`) -/
  | biddingPhase
deriving DecidableEq, Repr

structure TimerEntry where
  tid : Nat
  justif : TimerJustif
deriving DecidableEq, Repr

structure Sched where
  pendingT : List TimerEntry
  handle : Option Nat
  nextId : Nat
deriving DecidableEq, Repr

def clearTurnTimer (s : Sched) : Sched :=
  match s.handle with
  | some h => { s with pendingT := s.pendingT.filter (fun e => e.tid ≠ h), handle := none }
  | none => s

def startTurnTimer (s : Sched) (j : TimerJustif) : Sched :=
  let s := clearTurnTimer s
  { pendingT := s.pendingT ++ [⟨s.nextId, j⟩], handle := some s.nextId,
    nextId := s.nextId + 1 }

/-- Every still-pending deadline is the one the room's handle names (true
of the initial timerless room, and maintained because the handle is only
overwritten after `clearTimeout`). -/
def SchedInv (s : Sched) : Prop :=
  ∀ e ∈ s.pendingT, s.handle = some e.tid

/-- `startRound`'s 20s deadline callback (auto-place the first card). -/
def fireRoundStartTimer (r : Room) (seat : Nat) : Room :=
  if r.phase = Phase.placing ∧ r.currentPlayer = (seat : Int) then
    match r.players[seat]? with
    | some p => if 0 < p.hand.length then handlePlace r seat 0 else r
    | none => r
  else r

/-- `advancePlacing`'s 20s deadline callback (auto-bid 1 when allowed,
else auto-place; the captured player object is re-read from the room,
which is faithful because started rooms never splice seats). -/
def firePlacingTimer (r : Room) (seat : Nat) : Room :=
  if r.phase = Phase.placing ∧ r.currentPlayer = (seat : Int) then
    match r.players[seat]? with
    | some np =>
      if !r.firstPlacement && !np.stack.isEmpty then handleStartBid r seat 1
      else if 0 < np.hand.length then handlePlace r seat 0
      else r
    | none => r
  else r

/-! ### Lemmas about the indexed list helpers -/

theorem length_mapIdxFrom (f : Nat → α → β) (i : Nat) (l : List α) :
    (mapIdxFrom f i l).length = l.length := by
  induction l generalizing i <;> simp [mapIdxFrom, *]

theorem getElem?_mapIdxFrom (f : Nat → α → β) (i j : Nat) (l : List α) :
    (mapIdxFrom f i l)[j]? = (l[j]?).map (f (i + j)) := by
  induction l generalizing i j with
  | nil => simp [mapIdxFrom]
  | cons a as ih =>
    cases j with
    | zero => simp [mapIdxFrom]
    | succ k =>
      have h2 : i + (k + 1) = (i + 1) + k := by omega
      simp only [mapIdxFrom, List.getElem?_cons_succ, h2]
      exact ih (i + 1) k

theorem getElem?_pmapIdx (f : Nat → α → β) (j : Nat) (l : List α) :
    (pmapIdx f l)[j]? = (l[j]?).map (f j) := by
  simpa [pmapIdx] using getElem?_mapIdxFrom f 0 j l

theorem length_modifyP (l : List α) (i : Nat) (f : α → α) :
    (modifyP l i f).length = l.length := by
  induction l generalizing i with
  | nil => simp [modifyP]
  | cons a as ih => cases i <;> simp [modifyP, *]

theorem getElem?_modifyP_self (l : List α) (i : Nat) (f : α → α) :
    (modifyP l i f)[i]? = (l[i]?).map f := by
  induction l generalizing i with
  | nil => simp [modifyP]
  | cons a as ih => cases i <;> simp [modifyP, *]

theorem getElem?_modifyP_ne (l : List α) (i j : Nat) (f : α → α) (h : j ≠ i) :
    (modifyP l i f)[j]? = l[j]? := by
  induction l generalizing i j with
  | nil => simp [modifyP]
  | cons a as ih =>
    cases i with
    | zero =>
      cases j with
      | zero => exact absurd rfl h
      | succ k => simp [modifyP]
    | succ n =>
      cases j with
      | zero => simp [modifyP]
      | succ k => simpa [modifyP] using ih n k (by omega)

theorem sum_map_modifyP (g : α → Int) (l : List α) (i : Nat) (f : α → α)
    (p : α) (hp : l[i]? = some p) :
    ((modifyP l i f).map g).sum = (l.map g).sum - g p + g (f p) := by
  induction l generalizing i with
  | nil => simp at hp
  | cons a as ih =>
    cases i with
    | zero =>
      simp at hp
      subst hp
      simp [modifyP]
      ring
    | succ n =>
      simp at hp
      have := ih n hp
      simp [modifyP, this]
      ring

theorem sum_map_map_of_eq (g : β → Int) (f : α → β) (g' : α → Int)
    (h : ∀ p, g (f p) = g' p) (l : List α) :
    ((l.map f).map g).sum = (l.map g').sum := by
  induction l with
  | nil => simp
  | cons a as ih => simp only [List.map_cons, List.sum_cons, h, ih]

theorem sum_map_mapIdxFrom (g : α → Int) (f : Nat → α → α)
    (h : ∀ i p, g (f i p) = g p) (i : Nat) (l : List α) :
    ((mapIdxFrom f i l).map g).sum = (l.map g).sum := by
  induction l generalizing i with
  | nil => simp [mapIdxFrom]
  | cons a as ih =>
    simp only [mapIdxFrom, List.map_cons, List.sum_cons, h, ih]

/-- Re-writing an already-consistent cache field is the identity
(`room.totalCoastersOnTable = countOnTable(room)` pre-established). -/
theorem set_cache_id (r : Room) (h : r.totalCoastersOnTable = countOnTable r) :
    { r with totalCoastersOnTable := countOnTable r } = r := by
  rw [← h]

/-! ### Guard-failure no-op lemmas (shared helpers) -/

/-- The legality conditions the spec lists for a flip during `flipping`
(written from the spec's words, to compare with `handleFlip`): highest
bidder, turn owner, flips left, a live non-empty target, and own stack
first. -/
def flipLegalSpec (r : Room) (i : Nat) (t : Int) : Bool :=
  ((i : Int) == r.highestBidder) && (r.currentPlayer == (i : Int)) &&
  (0 < r.flipsRemaining) &&
  (match rget r t with
   | some tp => !tp.eliminated && !tp.stack.isEmpty
   | none => false) &&
  ((t == (i : Int)) ||
   (match r.players[i]? with
    | some fp => fp.stack.isEmpty
    | none => true))


theorem handlePlace_noop (r : Room) (i : Nat) (c : Int)
    (h : r.phase ≠ Phase.placing ∨ r.currentPlayer ≠ (i : Int) ∨
      (∀ p, r.players[i]? = some p → c < 0 ∨ (p.hand.length : Int) ≤ c)) :
    handlePlace r i c = r := by
  unfold handlePlace
  by_cases hph : r.phase ≠ Phase.placing
  · rw [if_pos hph]
  rw [if_neg hph]
  by_cases hcur : r.currentPlayer ≠ (i : Int)
  · rw [if_pos hcur]
  rw [if_neg hcur]
  rcases h with h | h | h
  · exact absurd h hph
  · exact absurd h hcur
  cases hE : r.players[i]? with
  | none => rfl
  | some p =>
    dsimp only
    rw [if_pos (h p hE)]

theorem handleStartBid_noop (r : Room) (i : Nat) (amt : Int)
    (h : r.phase ≠ Phase.placing ∨ r.currentPlayer ≠ (i : Int) ∨
      r.firstPlacement = true) :
    handleStartBid r i amt = r := by
  unfold handleStartBid
  by_cases hph : r.phase ≠ Phase.placing
  · rw [if_pos hph]
  rw [if_neg hph]
  by_cases hcur : r.currentPlayer ≠ (i : Int)
  · rw [if_pos hcur]
  rw [if_neg hcur]
  rcases h with h | h | h
  · exact absurd h hph
  · exact absurd h hcur
  · rw [if_pos h]

theorem handleRaiseBid_noop (r : Room) (i : Nat) (amt : Int)
    (hcache : r.totalCoastersOnTable = countOnTable r)
    (h : r.phase ≠ Phase.bidding ∨
      (∀ p, r.players[i]? = some p → p.passed = true ∨ p.eliminated = true) ∨
      (i : Int) = r.highestBidder ∨ amt ≤ r.currentBid ∨ countOnTable r < amt) :
    handleRaiseBid r i amt = r := by
  unfold handleRaiseBid
  by_cases hph : r.phase ≠ Phase.bidding
  · rw [if_pos hph]
  rw [if_neg hph]
  cases hE : r.players[i]? with
  | none => rfl
  | some p =>
    dsimp only
    by_cases hpe : (p.passed || p.eliminated) = true
    · rw [if_pos hpe]
    rw [if_neg hpe]
    by_cases hhb : (i : Int) = r.highestBidder
    · rw [if_pos hhb]
    rw [if_neg hhb]
    rcases h with h | h | h | h | h
    · exact absurd h hph
    · rcases h p hE with hh | hh <;> simp [hh] at hpe
    · exact absurd h hhb
    · rw [if_pos (Or.inl h)]
      exact set_cache_id r hcache
    · rw [if_pos (Or.inr h)]
      exact set_cache_id r hcache

theorem handlePass_noop (r : Room) (i : Nat)
    (h : r.phase ≠ Phase.bidding ∨
      (∀ p, r.players[i]? = some p → p.passed = true ∨ p.eliminated = true) ∨
      (i : Int) = r.highestBidder) :
    handlePass r i = r := by
  unfold handlePass
  by_cases hph : r.phase ≠ Phase.bidding
  · rw [if_pos hph]
  rw [if_neg hph]
  cases hE : r.players[i]? with
  | none => rfl
  | some p =>
    dsimp only
    by_cases hpe : (p.passed || p.eliminated) = true
    · rw [if_pos hpe]
    rw [if_neg hpe]
    rcases h with h | h | h
    · exact absurd h hph
    · rcases h p hE with hh | hh <;> simp [hh] at hpe
    · rw [if_pos h]

theorem handleFlip_noop (r : Room) (i : Nat) (t : Int)
    (h : r.phase ≠ Phase.flipping ∨ flipLegalSpec r i t = false) :
    handleFlip r i t = (r, []) := by
  unfold handleFlip
  by_cases hph : r.phase ≠ Phase.flipping
  · rw [if_pos hph]
  rw [if_neg hph]
  replace h : flipLegalSpec r i t = false := by
    rcases h with h | h
    · exact absurd h hph
    · exact h
  by_cases hfr : r.flipsRemaining ≤ 0
  · rw [if_pos hfr]
  rw [if_neg hfr]
  by_cases hhb : (i : Int) ≠ r.highestBidder
  · rw [if_pos hhb]
  rw [if_neg hhb]
  by_cases hcur : r.currentPlayer ≠ (i : Int)
  · rw [if_pos hcur]
  rw [if_neg hcur]
  cases hE : rget r t with
  | none => rfl
  | some tp =>
    dsimp only
    by_cases helim : tp.eliminated = true
    · rw [if_pos helim]
    rw [if_neg helim]
    by_cases hstk : tp.stack.isEmpty = true
    · rw [if_pos hstk]
    rw [if_neg hstk]
    cases hF : r.players[i]? with
    | none => rfl
    | some fp =>
      dsimp only
      rw [if_pos ?_]
      -- all earlier legality conjuncts hold, so `flipLegalSpec = false`
      -- forces the own-stack-first condition to fail
      by_contra hcond
      have hhb' : (i : Int) = r.highestBidder := not_not.mp hhb
      have hcur' : r.currentPlayer = (i : Int) := not_not.mp hcur
      have helim' : tp.eliminated = false := Bool.not_eq_true _ |>.mp helim
      have hstk' : tp.stack.isEmpty = false := Bool.not_eq_true _ |>.mp hstk
      rw [not_and_or, not_not, not_not] at hcond
      have htrue : flipLegalSpec r i t = true := by
        simp only [flipLegalSpec, hE, hF, hhb', hcur', helim', hstk']
        rcases hcond with hc | hc
        · simp [hc]
          omega
        · simp [hc]
          omega
      rw [htrue] at h
      simp at h

theorem handlePenaltyDiscard_noop (r : Room) (i : Nat) (c : Int)
    (h : r.phase ≠ Phase.penalty ∨ r.penaltyPlayer ≠ (i : Int) ∨
      (∀ p, r.players[i]? = some p → c < 0 ∨ (p.cards.length : Int) ≤ c)) :
    handlePenaltyDiscard r i c = (r, []) := by
  unfold handlePenaltyDiscard
  by_cases hph : r.phase ≠ Phase.penalty
  · rw [if_pos hph]
  rw [if_neg hph]
  by_cases hpp : r.penaltyPlayer ≠ (i : Int)
  · rw [if_pos hpp]
  rw [if_neg hpp]
  rcases h with h | h | h
  · exact absurd h hph
  · exact absurd h hpp
  cases hE : r.players[i]? with
  | none => rfl
  | some p =>
    dsimp only
    rw [if_pos (h p hE)]

/-- The applied case of `handleFlip`: the legality conditions hold, so the
target's top stack token is popped, a reveal record is appended, and
`flipsRemaining` drops by one. -/
theorem handleFlip_applied (r : Room) (i : Nat) (t : Int)
    (hph : r.phase = Phase.flipping)
    (hleg : flipLegalSpec r i t = true)
    (hi : i < r.players.length)
    (tp : Player) (hE : rget r t = some tp) :
    ∃ card, tp.stack.getLast? = some card ∧
      ((handleFlip r i t).1.players)[t.toNat]? =
        some { tp with stack := tp.stack.dropLast } ∧
      (handleFlip r i t).1.revealedCards =
        r.revealedCards ++ [⟨t.toNat, card, tp.name⟩] ∧
      (handleFlip r i t).1.flipsRemaining = r.flipsRemaining - 1 := by
  have ht0 : 0 ≤ t := by
    by_contra hlt
    simp [rget, hlt] at hE
  obtain ⟨fp, hF⟩ : ∃ fp, r.players[i]? = some fp :=
    ⟨r.players[i], (List.getElem?_eq_getElem hi)⟩
  simp only [flipLegalSpec, hE, hF, Bool.and_eq_true, Bool.or_eq_true,
    beq_iff_eq, decide_eq_true_eq, Bool.not_eq_true'] at hleg
  obtain ⟨⟨⟨⟨hhb, hcur⟩, hfr⟩, helim, hstk⟩, hlast⟩ := hleg
  obtain ⟨card, hcard⟩ : ∃ c, tp.stack.getLast? = some c := by
    cases hc : tp.stack.getLast? with
    | none =>
      rw [List.getLast?_eq_none_iff] at hc
      rw [hc] at hstk
      simp at hstk
    | some c => exact ⟨c, rfl⟩
  refine ⟨card, hcard, ?_⟩
  unfold handleFlip
  rw [if_neg (by simp [hph]), if_neg (by omega), if_neg (by simp [hhb]),
    if_neg (by simp [hcur]), hE]
  dsimp only
  rw [if_neg (by simp [helim]), if_neg (by simp [hstk]), hF]
  dsimp only
  have hrej : ¬(t ≠ (i : Int) ∧ ¬fp.stack.isEmpty = true) := by
    rw [not_and_or]
    rcases hlast with hl | hl
    · left; simp [hl]
    · right; simp [hl]
  rw [if_neg hrej, hcard]
  dsimp only
  have hget : (modifyP r.players t.toNat
      (fun q => { q with stack := q.stack.dropLast }))[t.toNat]? =
      some { tp with stack := tp.stack.dropLast } := by
    rw [getElem?_modifyP_self]
    have : r.players[t.toNat]? = some tp := by
      simpa [rget, ht0] using hE
    rw [this]
    rfl
  by_cases hsk : card = Card.skull
  · rw [if_pos hsk]
    exact ⟨hget, rfl, rfl⟩
  · rw [if_neg hsk]
    by_cases hfin : r.flipsRemaining - 1 ≤ 0
    · rw [if_pos hfin]
      exact ⟨hget, rfl, rfl⟩
    · rw [if_neg hfin]
      exact ⟨hget, rfl, rfl⟩

/-- Concrete seats and rooms used by the witnesses below. -/
def testSeat (sid nm : String) (cards hand stack : List Card) : Player :=
  { id := sid, name := nm, cards := cards, hand := hand, stack := stack,
    wins := 0, eliminated := false, passed := false, connected := true,
    colorIndex := 0 }

/-- A consistent two-seat room in the `bidding` phase (bid 1 by seat 0,
one coaster on each stack). -/
def wRoomBid : Room :=
  { code := "WXYZ", players :=
      [testSeat "a" "A" [.rose, .rose, .rose, .skull] [.rose, .rose, .skull] [.rose],
       testSeat "b" "B" [.rose, .rose, .rose, .skull] [.rose, .rose, .skull] [.rose]],
    hostId := "a", started := true, phase := .bidding, currentPlayer := -1,
    currentBid := 1, highestBidder := 0, flipsRemaining := 0,
    totalCoastersOnTable := 2, roundNum := 1, firstPlacement := false,
    nextRoundStarter := -1, penaltyPlayer := -1, revealedCards := [] }

/-- A two-seat room in the `flipping` phase: seat 0 won the bid at 2 and
still has a coaster on its own stack. -/
def wRoomFlip : Room :=
  { code := "WXYZ", players :=
      [testSeat "a" "A" [.rose, .rose, .rose, .skull] [.rose, .rose, .skull] [.rose],
       testSeat "b" "B" [.rose, .rose, .rose, .skull] [.rose, .rose, .skull] [.rose]],
    hostId := "a", started := true, phase := .flipping, currentPlayer := 0,
    currentBid := 2, highestBidder := 0, flipsRemaining := 2,
    totalCoastersOnTable := 2, roundNum := 1, firstPlacement := false,
    nextRoundStarter := -1, penaltyPlayer := -1, revealedCards := [] }

/-- C2: in phase `flipping`, a flip request is applied iff the requester
is the highest bidder and turn owner, `flipsRemaining` is positive, the
target seat exists, is non-eliminated with a non-empty stack, and is
either the bidder's own seat or the bidder's own stack is empty; an
applied flip pops the target's top stack token, appends a reveal record
(seat index, token kind, player name) and decrements `flipsRemaining`;
any failing request leaves the room unchanged. -/
theorem C2_flip_characterization :
    ∀ (r : Room) (i : Nat) (t : Int), r.phase = Phase.flipping →
      (flipLegalSpec r i t = false → handleFlip r i t = (r, [])) ∧
      (flipLegalSpec r i t = true → i < r.players.length →
        ∀ tp, rget r t = some tp →
          ∃ card, tp.stack.getLast? = some card ∧
            ((handleFlip r i t).1.players)[t.toNat]? =
              some { tp with stack := tp.stack.dropLast } ∧
            (handleFlip r i t).1.revealedCards =
              r.revealedCards ++ [⟨t.toNat, card, tp.name⟩] ∧
            (handleFlip r i t).1.flipsRemaining = r.flipsRemaining - 1) := by
  intro r i t hph
  constructor
  · intro hleg
    exact handleFlip_noop r i t (Or.inr hleg)
  · intro hleg hi tp hE
    exact handleFlip_applied r i t hph hleg hi tp hE

/-- Witness for C2: in `wRoomFlip` the flip on the opponent's seat is
rejected (own stack still non-empty) and the self-flip is applied. -/
theorem C2_witness :
    (handleFlip wRoomFlip 0 1 = (wRoomFlip, [])) ∧
    (∃ card, (testSeat "a" "A" [.rose, .rose, .rose, .skull]
        [.rose, .rose, .skull] [.rose]).stack.getLast? = some card ∧
      ((handleFlip wRoomFlip 0 0).1.players)[(0 : Int).toNat]? =
        some { (testSeat "a" "A" [.rose, .rose, .rose, .skull]
          [.rose, .rose, .skull] [.rose]) with stack := [] } ∧
      (handleFlip wRoomFlip 0 0).1.revealedCards =
        wRoomFlip.revealedCards ++ [⟨(0 : Int).toNat, card, "A"⟩] ∧
      (handleFlip wRoomFlip 0 0).1.flipsRemaining =
        wRoomFlip.flipsRemaining - 1) := by
  constructor
  · exact (C2_flip_characterization wRoomFlip 0 1 (by decide)).1 (by decide)
  · have h := (C2_flip_characterization wRoomFlip 0 0 (by decide)).2
      (by decide) (by decide)
      (testSeat "a" "A" [.rose, .rose, .rose, .skull] [.rose, .rose, .skull] [.rose])
      (by decide)
    simpa using h

/-- C8: every in-game action handler (place-card, start-bid, raise-bid,
pass, flip-coaster, penalty-discard) returns early on a failed phase,
turn-ownership or bounds check, leaving the room state entirely unchanged
(the raise handler's pre-rejection cache refresh rewrites the value the
cache already holds on consistent rooms); the handlers are total
functions into the room state with no error channel, so nothing is
surfaced to the actor. -/
theorem C8_silent_rejection :
    (∀ (r : Room) (i : Nat) (c : Int),
      (r.phase ≠ Phase.placing ∨ r.currentPlayer ≠ (i : Int) ∨
        (∀ p, r.players[i]? = some p → c < 0 ∨ (p.hand.length : Int) ≤ c)) →
      handlePlace r i c = r) ∧
    (∀ (r : Room) (i : Nat) (amt : Int),
      (r.phase ≠ Phase.placing ∨ r.currentPlayer ≠ (i : Int) ∨
        r.firstPlacement = true) →
      handleStartBid r i amt = r) ∧
    (∀ (r : Room) (i : Nat) (amt : Int),
      r.totalCoastersOnTable = countOnTable r →
      (r.phase ≠ Phase.bidding ∨
        (∀ p, r.players[i]? = some p → p.passed = true ∨ p.eliminated = true) ∨
        (i : Int) = r.highestBidder ∨ amt ≤ r.currentBid ∨ countOnTable r < amt) →
      handleRaiseBid r i amt = r) ∧
    (∀ (r : Room) (i : Nat),
      (r.phase ≠ Phase.bidding ∨
        (∀ p, r.players[i]? = some p → p.passed = true ∨ p.eliminated = true) ∨
        (i : Int) = r.highestBidder) →
      handlePass r i = r) ∧
    (∀ (r : Room) (i : Nat) (t : Int),
      (r.phase ≠ Phase.flipping ∨ flipLegalSpec r i t = false) →
      handleFlip r i t = (r, [])) ∧
    (∀ (r : Room) (i : Nat) (c : Int),
      (r.phase ≠ Phase.penalty ∨ r.penaltyPlayer ≠ (i : Int) ∨
        (∀ p, r.players[i]? = some p → c < 0 ∨ (p.cards.length : Int) ≤ c)) →
      handlePenaltyDiscard r i c = (r, [])) :=
  ⟨handlePlace_noop, handleStartBid_noop,
    fun r i amt hc h => handleRaiseBid_noop r i amt hc h,
    handlePass_noop, handleFlip_noop, handlePenaltyDiscard_noop⟩

/-- Witness for C8: in the bidding-phase room `wRoomBid`, an out-of-phase
place, an out-of-phase bid opening, an under-bid raise, a pass by the
highest bidder, an out-of-phase flip and an out-of-phase penalty discard
are all exact no-ops. -/
theorem C8_witness :
    handlePlace wRoomBid 0 0 = wRoomBid ∧
    handleStartBid wRoomBid 0 1 = wRoomBid ∧
    handleRaiseBid wRoomBid 1 1 = wRoomBid ∧
    handlePass wRoomBid 0 = wRoomBid ∧
    handleFlip wRoomBid 0 0 = (wRoomBid, []) ∧
    handlePenaltyDiscard wRoomBid 0 0 = (wRoomBid, []) :=
  ⟨C8_silent_rejection.1 wRoomBid 0 0 (Or.inl (by decide)),
   C8_silent_rejection.2.1 wRoomBid 0 1 (Or.inl (by decide)),
   C8_silent_rejection.2.2.1 wRoomBid 1 1 (by decide)
     (Or.inr (Or.inr (Or.inr (Or.inl (by decide))))),
   C8_silent_rejection.2.2.2.1 wRoomBid 0
     (Or.inr (Or.inr (by decide))),
   C8_silent_rejection.2.2.2.2.1 wRoomBid 0 0 (Or.inl (by decide)),
   C8_silent_rejection.2.2.2.2.2 wRoomBid 0 0 (Or.inl (by decide))⟩

/-- C9: `joinRoom` outcomes — room-not-found on an unknown (uppercased,
trimmed) code; for a started room, rebind of the first disconnected seat
with the requested name (only identity and connected flag change, every
other seat and the seat's cards/hand/stack/wins are intact) or
game-in-progress when there is none; for a lobby room, room-full at 6
seats, then name-taken; lookup is insensitive to anything the
uppercase+trim normalisation removes. -/
theorem C9_join_room :
    (∀ (registry : List (String × Room)) (rawCode rawName sid : String),
      registry.find? (fun kv => kv.1 = jsTrim (jsToUpper rawCode)) = none →
      joinRoom registry rawCode rawName sid = (.notFound, none)) ∧
    (∀ (registry : List (String × Room)) (rawCode rawName sid k : String)
        (room : Room),
      registry.find? (fun kv => kv.1 = jsTrim (jsToUpper rawCode)) = some (k, room) →
      room.started = true →
      room.players.findIdx? (fun p => p.name = normName rawName && !p.connected) = none →
      joinRoom registry rawCode rawName sid = (.inProgress, some room)) ∧
    (∀ (registry : List (String × Room)) (rawCode rawName sid k : String)
        (room : Room) (j : Nat) (p : Player),
      registry.find? (fun kv => kv.1 = jsTrim (jsToUpper rawCode)) = some (k, room) →
      room.started = true →
      room.players.findIdx? (fun q => q.name = normName rawName && !q.connected) = some j →
      room.players[j]? = some p →
      (joinRoom registry rawCode rawName sid).1 = .joined ∧
      ∃ room', (joinRoom registry rawCode rawName sid).2 = some room' ∧
        room'.players.length = room.players.length ∧
        room'.players[j]? = some { p with id := sid, connected := true } ∧
        (∀ m : Nat, m ≠ j → room'.players[m]? = room.players[m]?) ∧
        room'.phase = room.phase ∧ room'.started = room.started) ∧
    (∀ (registry : List (String × Room)) (rawCode rawName sid k : String)
        (room : Room),
      registry.find? (fun kv => kv.1 = jsTrim (jsToUpper rawCode)) = some (k, room) →
      room.started = false → 6 ≤ room.players.length →
      joinRoom registry rawCode rawName sid = (.full, some room)) ∧
    (∀ (registry : List (String × Room)) (rawCode rawName sid k : String)
        (room : Room),
      registry.find? (fun kv => kv.1 = jsTrim (jsToUpper rawCode)) = some (k, room) →
      room.started = false → room.players.length < 6 →
      room.players.any (fun p => p.name = normName rawName) = true →
      joinRoom registry rawCode rawName sid = (.nameTaken, some room)) ∧
    (∀ (registry : List (String × Room)) (c1 c2 rawName sid : String),
      jsTrim (jsToUpper c1) = jsTrim (jsToUpper c2) →
      joinRoom registry c1 rawName sid = joinRoom registry c2 rawName sid) := by
  refine ⟨?_, ?_, ?_, ?_, ?_, ?_⟩
  · intro registry rawCode rawName sid hfind
    unfold joinRoom
    rw [hfind]
    rfl
  · intro registry rawCode rawName sid k room hfind hst hidx
    unfold joinRoom joinRoomCore
    rw [hfind]
    simp [hst, hidx]
  · intro registry rawCode rawName sid k room j p hfind hst hidx hp
    have hjoin : joinRoom registry rawCode rawName sid =
        (.joined, some (rebindSeat room j sid)) := by
      unfold joinRoom joinRoomCore
      rw [hfind]
      simp [hst, hidx]
    rw [hjoin]
    refine ⟨rfl, rebindSeat room j sid, rfl, ?_, ?_, ?_, rfl, rfl⟩
    · unfold rebindSeat
      simp only
      rw [length_modifyP]
    · unfold rebindSeat
      simp only
      rw [getElem?_modifyP_self, hp]
      rfl
    · intro m hm
      unfold rebindSeat
      simp only
      rw [getElem?_modifyP_ne _ _ _ _ hm]
  · intro registry rawCode rawName sid k room hfind hst hfull
    unfold joinRoom joinRoomCore
    rw [hfind]
    simp [hst, hfull]
  · intro registry rawCode rawName sid k room hfind hst hn htaken
    unfold joinRoom joinRoomCore
    rw [hfind]
    simp [hst, htaken, Nat.not_le.mpr hn]
  · intro registry c1 c2 rawName sid hcodes
    unfold joinRoom
    rw [hcodes]

/-- A started room whose seat "A" is disconnected, for the reconnection
witness. -/
def wRoomRe : Room :=
  { wRoomBid with players :=
      [{ testSeat "a" "A" [.rose] [.rose] [] with connected := false },
       testSeat "b" "B" [.rose] [.rose] []] }

/-- Witness for C9: a one-room registry exercising not-found, the
reconnection rebind on a lowercase code, and name-taken. -/
theorem C9_witness :
    (joinRoom [("WXYZ", wRoomBid)] "QQQQ" "A" "z" = (.notFound, none)) ∧
    ((joinRoom [("WXYZ", wRoomRe)] "wxyz" "A" "z").1 = .joined) ∧
    (joinRoom [("WXYZ", { wRoomBid with started := false })] " wxyz " "B" "z" =
      (.nameTaken, some { wRoomBid with started := false })) := by
  refine ⟨?_, ?_, ?_⟩
  · exact C9_join_room.1 [("WXYZ", wRoomBid)] "QQQQ" "A" "z" (by decide)
  · exact (C9_join_room.2.2.1 [("WXYZ", wRoomRe)] "wxyz" "A" "z" "WXYZ" wRoomRe 0
      ({ testSeat "a" "A" [.rose] [.rose] [] with connected := false })
      (by decide) (by decide) (by decide) (by decide)).1
  · exact C9_join_room.2.2.2.2.1 [("WXYZ", { wRoomBid with started := false })]
      " wxyz " "B" "z" "WXYZ" { wRoomBid with started := false }
      (by decide) (by decide) (by decide) (by decide)

/-! ### Lemmas for the projector -/

theorem findIdx?_modifyP (l : List α) (i : Nat) (f : α → α) (pred : α → Bool)
    (h : ∀ a, pred (f a) = pred a) :
    (modifyP l i f).findIdx? pred = l.findIdx? pred := by
  induction l generalizing i with
  | nil => simp [modifyP]
  | cons a as ih =>
    cases i with
    | zero => simp [modifyP, List.findIdx?_cons, h]
    | succ n => simp [modifyP, List.findIdx?_cons, ih]

theorem getElem?_modifyP_map (l : List α) (j m : Nat) (f : α → α) (g : α → β)
    (h : ∀ a, g (f a) = g a) :
    ((modifyP l j f)[m]?).map g = (l[m]?).map g := by
  by_cases hm : m = j
  · subst hm
    rw [getElem?_modifyP_self]
    cases l[m]? <;> simp [h]
  · rw [getElem?_modifyP_ne _ _ _ _ hm]

theorem playerIndex_replaceHand (r : Room) (j : Nat) (h : List Card)
    (sid : String) : playerIndex (replaceHand r j h) sid = playerIndex r sid := by
  unfold playerIndex replaceHand
  simp only
  rw [findIdx?_modifyP]
  intro a
  rfl

/-- C6: the projection exposes every seat's counts, wins and
connection/elimination/pass flags, carries hand contents only for the
viewer's own seat (`null` elsewhere), carries penalty card contents only
when the viewer is the penalty-resolving seat in phase `penalty`, and is
therefore unchanged under any count-preserving replacement of another
seat's hand contents. -/
theorem C6_projection_privacy :
    (∀ (r : Room) (sid : String) (i : Nat) (p : Player),
      r.players[i]? = some p →
      ∃ e, (stateForPlayer r sid).players[i]? = some e ∧
        e.handCount = p.hand.length ∧ e.stackCount = p.stack.length ∧
        e.totalCards = p.cards.length ∧ e.wins = p.wins ∧
        e.eliminated = p.eliminated ∧ e.passed = p.passed ∧
        e.connected = p.connected ∧
        e.hand = (if (i : Int) = playerIndex r sid then some p.hand else none)) ∧
    (∀ (r : Room) (sid : String),
      (stateForPlayer r sid).penaltyCards ≠ none →
      r.phase = Phase.penalty ∧ r.penaltyPlayer = playerIndex r sid) ∧
    (∀ (r : Room) (sid : String),
      r.phase = Phase.penalty → r.penaltyPlayer = playerIndex r sid →
      (stateForPlayer r sid).penaltyCards =
        (rget r (playerIndex r sid)).map (fun p => p.cards)) ∧
    (∀ (r : Room) (sid : String) (j : Nat) (h' : List Card) (p : Player),
      r.players[j]? = some p → (j : Int) ≠ playerIndex r sid →
      h'.length = p.hand.length →
      stateForPlayer (replaceHand r j h') sid = stateForPlayer r sid) := by
  refine ⟨?_, ?_, ?_, ?_⟩
  · intro r sid i p hp
    have he : (stateForPlayer r sid).players[i]? = some
        { name := p.name, handCount := p.hand.length,
          hand := if (i : Int) = playerIndex r sid then some p.hand else none,
          stackCount := p.stack.length, totalCards := p.cards.length,
          wins := p.wins, eliminated := p.eliminated, passed := p.passed,
          connected := p.connected, isMe := decide ((i : Int) = playerIndex r sid),
          colorIndex := p.colorIndex } := by
      unfold stateForPlayer
      simp only
      rw [getElem?_pmapIdx, hp]
      rfl
    exact ⟨_, he, rfl, rfl, rfl, rfl, rfl, rfl, rfl, rfl⟩
  · intro r sid hne
    unfold stateForPlayer at hne
    simp only at hne
    by_cases hc : r.phase = Phase.penalty ∧ r.penaltyPlayer = playerIndex r sid
    · exact hc
    · rw [if_neg hc] at hne
      exact absurd rfl hne
  · intro r sid hph hpp
    simp [stateForPlayer, hph, hpp]
  · intro r sid j h' p hp hj hlen
    have hidx := playerIndex_replaceHand r j h' sid
    unfold stateForPlayer
    simp only [hidx]
    dsimp only [replaceHand]
    congr 1
    · -- the projected player list is unchanged
      apply List.ext_getElem?
      intro m
      rw [getElem?_pmapIdx, getElem?_pmapIdx]
      by_cases hm : m = j
      · subst hm
        rw [getElem?_modifyP_self, hp]
        have hmne : (m : Int) ≠ playerIndex r sid := hj
        simp [hmne, hlen]
      · rw [getElem?_modifyP_ne _ _ _ _ hm]
    · -- the penalty view reads `cards`, which the replacement preserves
      by_cases hc : r.phase = Phase.penalty ∧ r.penaltyPlayer = playerIndex r sid
      · rw [if_pos hc, if_pos hc]
        unfold rget
        dsimp only
        by_cases hge : 0 ≤ playerIndex r sid
        · rw [if_pos hge, if_pos hge]
          rw [getElem?_modifyP_map]
          intro a
          rfl
        · rw [if_neg hge, if_neg hge]
      · rw [if_neg hc, if_neg hc]

/-- Witness for C6: in `wRoomFlip` viewed by seat 0, replacing seat 1's
hand by another 3-token hand leaves the projection unchanged. -/
theorem C6_witness :
    stateForPlayer (replaceHand wRoomFlip 1 [.skull, .skull, .skull]) "a" =
      stateForPlayer wRoomFlip "a" :=
  C6_projection_privacy.2.2.2 wRoomFlip "a" 1 [.skull, .skull, .skull]
    (testSeat "b" "B" [.rose, .rose, .rose, .skull] [.rose, .rose, .skull] [.rose])
    (by decide) (by decide) (by decide)

/-! ### C7: one pending deadline, stale firings are no-ops -/

theorem clearTurnTimer_pendingT (s : Sched) (h : SchedInv s) :
    (clearTurnTimer s).pendingT = [] := by
  unfold clearTurnTimer
  cases hh : s.handle with
  | none =>
    simp only
    rw [List.eq_nil_iff_forall_not_mem]
    intro e he
    rw [h e he] at hh
    exact Option.noConfusion hh
  | some hd =>
    simp only
    rw [List.filter_eq_nil_iff]
    intro e he
    have := h e he
    rw [hh] at this
    injection this with h2
    simp [h2]

/-- C7: the room holds at most one pending deadline at any time —
`startTurnTimer` always cancels the still-pending deadline before
registering the new one (so the single-deadline invariant is preserved
and at most one timer is pending afterwards) — and each deadline
callback re-validates the phase / turn-ownership state that justified
scheduling it, so a stale firing leaves the room unchanged. -/
theorem C7_scheduler_discipline :
    (∀ s : Sched, SchedInv s → (clearTurnTimer s).pendingT = []) ∧
    (∀ (s : Sched) (j : TimerJustif), SchedInv s →
      SchedInv (startTurnTimer s j) ∧
      (startTurnTimer s j).pendingT.length ≤ 1) ∧
    (∀ (r : Room) (seat : Nat),
      ¬(r.phase = Phase.placing ∧ r.currentPlayer = (seat : Int)) →
      fireRoundStartTimer r seat = r ∧ firePlacingTimer r seat = r) ∧
    (∀ r : Room, r.phase ≠ Phase.bidding → fireBidTimer r = r) := by
  refine ⟨clearTurnTimer_pendingT, ?_, ?_, ?_⟩
  · intro s j h
    have hclear := clearTurnTimer_pendingT s h
    constructor
    · intro e he
      unfold startTurnTimer at he ⊢
      simp only [hclear] at he
      simp only
      simp at he
      rw [he]
    · unfold startTurnTimer
      simp [hclear]
  · intro r seat h
    constructor
    · unfold fireRoundStartTimer
      rw [if_neg h]
    · unfold firePlacingTimer
      rw [if_neg h]
  · intro r h
    unfold fireBidTimer
    rw [if_pos h]

/-- Witness for C7: from an empty scheduler, two successive
`startTurnTimer` calls leave exactly one pending deadline, and stale
firings on concrete rooms are no-ops. -/
theorem C7_witness :
    (startTurnTimer (startTurnTimer ⟨[], none, 0⟩ (.placingTurn 0))
      .biddingPhase).pendingT.length ≤ 1 ∧
    fireRoundStartTimer wRoomBid 0 = wRoomBid ∧
    fireBidTimer wRoomFlip = wRoomFlip := by
  refine ⟨?_, ?_, ?_⟩
  · exact (C7_scheduler_discipline.2.1 (startTurnTimer ⟨[], none, 0⟩ (.placingTurn 0))
      .biddingPhase
      ((C7_scheduler_discipline.2.1 ⟨[], none, 0⟩ (.placingTurn 0)
        (by intro e he; simp at he)).1)).2
  · exact (C7_scheduler_discipline.2.2.1 wRoomBid 0 (by decide)).1
  · exact C7_scheduler_discipline.2.2.2 wRoomFlip (by decide)

/-! ### C3: when bidding ends and what entering `flipping` sets -/

/-- The spec's wording for the pass-out condition: every non-eliminated
seat other than the highest bidder has passed. -/
def allPassedSpec (r : Room) : Prop :=
  ∀ (i : Nat) (p : Player), r.players[i]? = some p → p.eliminated = false →
    (i : Int) ≠ r.highestBidder → p.passed = true

theorem countIdxFrom_eq_zero (f : Nat → α → Bool) (i : Nat) (l : List α) :
    countIdxFrom f i l = 0 ↔ ∀ (k : Nat) (a : α), l[k]? = some a → f (i + k) a = false := by
  induction l generalizing i with
  | nil => simp [countIdxFrom]
  | cons a as ih =>
    unfold countIdxFrom
    constructor
    · intro h k b hk
      by_cases hfa : f i a
      · rw [if_pos hfa] at h
        omega
      · rw [if_neg hfa] at h
        simp only [Nat.zero_add] at h
        cases k with
        | zero =>
          simp at hk
          subst hk
          simpa using hfa
        | succ m =>
          simp only [List.getElem?_cons_succ] at hk
          have := (ih (i + 1)).mp h m b hk
          have harith : i + 1 + m = i + (m + 1) := by omega
          rwa [harith] at this
    · intro h
      have hfa : f i a = false := by
        have := h 0 a (by simp)
        simpa using this
      rw [hfa]
      simp only [Bool.false_eq_true, if_false, Nat.zero_add]
      rw [ih (i + 1)]
      intro m b hm
      have := h (m + 1) b (by simpa using hm)
      have harith : i + (m + 1) = i + 1 + m := by omega
      rwa [harith] at this

theorem activeNonHB_zero_iff (r : Room) :
    activeNonHB r = 0 ↔ allPassedSpec r := by
  unfold activeNonHB allPassedSpec
  rw [countIdxFrom_eq_zero]
  constructor
  · intro h i p hp helim hhb
    have := h i p (by simpa using hp)
    simp [helim, hhb] at this
    exact this
  · intro h k a hk
    simp only [Nat.zero_add]
    by_cases helim : a.eliminated = false
    · by_cases hhb : (k : Int) = r.highestBidder
      · simp [hhb]
      · simp [h k a hk helim hhb]
    · simp only [Bool.not_eq_false] at helim
      simp [helim]

theorem countOnTable_modifyP (r : Room) (i : Nat) (f : Player → Player)
    (hf : ∀ p, (f p).stack = p.stack) :
    countOnTable { r with players := modifyP r.players i f } = countOnTable r := by
  unfold countOnTable
  simp only
  generalize r.players = l
  induction l generalizing i with
  | nil => simp [modifyP]
  | cons a as ih =>
    cases i with
    | zero => simp [modifyP, hf]
    | succ n =>
      simp only [modifyP, List.map_cons, List.sum_cons]
      rw [ih n]

theorem countOnTable_map (r : Room) (f : Player → Player)
    (hf : ∀ p, (f p).stack = p.stack) :
    countOnTable { r with players := r.players.map f } = countOnTable r := by
  unfold countOnTable
  simp only
  exact sum_map_map_of_eq _ f _ (fun p => by rw [hf]) r.players

theorem countOnTable_pmapIdx (r : Room) (f : Nat → Player → Player)
    (hf : ∀ i p, (f i p).stack = p.stack) :
    countOnTable { r with players := pmapIdx f r.players } = countOnTable r := by
  unfold countOnTable pmapIdx
  simp only
  exact sum_map_mapIdxFrom _ f (fun i p => by rw [hf]) 0 r.players

theorem allPassedSpec_congr (r' r : Room) (h1 : r'.players = r.players)
    (h2 : r'.highestBidder = r.highestBidder) :
    allPassedSpec r' ↔ allPassedSpec r := by
  unfold allPassedSpec
  rw [h1, h2]

/-- `checkBiddingEnd` characterised against the spec's conditions. -/
theorem checkBiddingEnd_spec (r : Room) (hph : r.phase = Phase.bidding)
    (hle : r.currentBid ≤ countOnTable r) :
    ((checkBiddingEnd r).phase = Phase.flipping ↔
      (r.currentBid = countOnTable r ∨ allPassedSpec r)) ∧
    (checkBiddingEnd r).currentBid = r.currentBid ∧
    (checkBiddingEnd r).highestBidder = r.highestBidder ∧
    (checkBiddingEnd r).players = r.players ∧
    ((checkBiddingEnd r).phase = Phase.flipping →
      (checkBiddingEnd r).flipsRemaining = (checkBiddingEnd r).currentBid ∧
      (checkBiddingEnd r).currentPlayer = (checkBiddingEnd r).highestBidder ∧
      (checkBiddingEnd r).revealedCards = []) := by
  unfold checkBiddingEnd startFlipping
  by_cases hc : activeNonHB { r with totalCoastersOnTable := countOnTable r } = 0 ∨
      { r with totalCoastersOnTable := countOnTable r }.totalCoastersOnTable ≤
        { r with totalCoastersOnTable := countOnTable r }.currentBid
  · rw [if_pos hc]
    refine ⟨?_, rfl, rfl, rfl, fun _ => ⟨rfl, rfl, rfl⟩⟩
    simp only [true_iff]
    rcases hc with hc | hc
    · right
      have : activeNonHB r = 0 := hc
      exact (activeNonHB_zero_iff r).mp this
    · left
      simp only at hc
      omega
  · rw [if_neg hc]
    push_neg at hc
    obtain ⟨hc1, hc2⟩ := hc
    refine ⟨?_, rfl, rfl, rfl, ?_⟩
    · simp only
      constructor
      · intro h
        rw [hph] at h
        exact absurd h (by intro hh; exact Phase.noConfusion hh)
      · intro h
        rcases h with h | h
        · simp only at hc2
          omega
        · exact absurd ((activeNonHB_zero_iff r).mpr h) hc1
    · intro h
      simp only at h
      rw [hph] at h
      exact absurd h (by intro hh; exact Phase.noConfusion hh)

theorem countOnTable_eq_of_players (r' r : Room) (h : r'.players = r.players) :
    countOnTable r' = countOnTable r := by
  unfold countOnTable
  rw [h]

theorem handlePass_eq (r : Room) (i : Nat) (p : Player)
    (hph : r.phase = Phase.bidding) (hp : r.players[i]? = some p)
    (hpe : p.passed = false) (hel : p.eliminated = false)
    (hhb : (i : Int) ≠ r.highestBidder) :
    handlePass r i = checkBiddingEnd
      { r with players := modifyP r.players i (fun q => { q with passed := true }) } := by
  unfold handlePass
  rw [if_neg (by simp [hph]), hp]
  dsimp only
  rw [if_neg (by simp [hpe, hel]), if_neg hhb]

theorem handleRaiseBid_eq (r : Room) (i : Nat) (amt : Int) (p : Player)
    (hph : r.phase = Phase.bidding) (hp : r.players[i]? = some p)
    (hpe : p.passed = false) (hel : p.eliminated = false)
    (hhb : (i : Int) ≠ r.highestBidder)
    (hlo : r.currentBid < amt) (hhi : amt ≤ countOnTable r) :
    handleRaiseBid r i amt = checkBiddingEnd
      { r with totalCoastersOnTable := countOnTable r,
               currentBid := amt, highestBidder := (i : Int) } := by
  unfold handleRaiseBid
  rw [if_neg (by simp [hph]), hp]
  dsimp only
  rw [if_neg (by simp [hpe, hel]), if_neg hhb, if_neg (by push_neg; omega)]

theorem handleStartBid_eq (r : Room) (i : Nat) (amt : Int)
    (hph : r.phase = Phase.placing) (hcur : r.currentPlayer = (i : Int))
    (hfp : r.firstPlacement = false) :
    handleStartBid r i amt = checkBiddingEnd
      { r with totalCoastersOnTable := countOnTable r,
               phase := Phase.bidding,
               currentBid := max 1 (min (if amt = 0 then 1 else amt) (countOnTable r)),
               highestBidder := (i : Int),
               players := r.players.map (fun pl => { pl with passed := false }),
               currentPlayer := -1 } := by
  unfold handleStartBid
  rw [if_neg (by simp [hph]), if_neg (by simp [hcur]), if_neg (by simp [hfp])]

theorem fireBidTimer_eq (r : Room) (hph : r.phase = Phase.bidding) :
    fireBidTimer r = checkBiddingEnd (autopassAll r) := by
  unfold fireBidTimer
  rw [if_neg (by simp [hph])]

/-- C3: after a bid opening, raise, pass, or timeout auto-pass, the room
moves to `flipping` exactly when the (updated) bid equals the total
tokens on all stacks or every non-eliminated seat other than the
(updated) highest bidder has passed; entering `flipping` sets
`flipsRemaining := currentBid`, fixes the turn owner to the highest
bidder and clears the reveal list.  (The conditions are read off the
handler's output state, whose bid, seats and stacks agree with the state
`checkBiddingEnd` inspected.) -/
theorem C3_bidding_termination :
    (∀ (r : Room) (i : Nat) (amt : Int),
      r.phase = Phase.placing → r.currentPlayer = (i : Int) →
      r.firstPlacement = false → 1 ≤ countOnTable r →
      (((handleStartBid r i amt).phase = Phase.flipping ↔
        ((handleStartBid r i amt).currentBid = countOnTable (handleStartBid r i amt) ∨
          allPassedSpec (handleStartBid r i amt))) ∧
        ((handleStartBid r i amt).phase = Phase.flipping →
          (handleStartBid r i amt).flipsRemaining = (handleStartBid r i amt).currentBid ∧
          (handleStartBid r i amt).currentPlayer = (handleStartBid r i amt).highestBidder ∧
          (handleStartBid r i amt).revealedCards = []))) ∧
    (∀ (r : Room) (i : Nat) (amt : Int) (p : Player),
      r.phase = Phase.bidding → r.players[i]? = some p →
      p.passed = false → p.eliminated = false → (i : Int) ≠ r.highestBidder →
      r.currentBid < amt → amt ≤ countOnTable r →
      (((handleRaiseBid r i amt).phase = Phase.flipping ↔
        ((handleRaiseBid r i amt).currentBid = countOnTable (handleRaiseBid r i amt) ∨
          allPassedSpec (handleRaiseBid r i amt))) ∧
        ((handleRaiseBid r i amt).phase = Phase.flipping →
          (handleRaiseBid r i amt).flipsRemaining = (handleRaiseBid r i amt).currentBid ∧
          (handleRaiseBid r i amt).currentPlayer = (handleRaiseBid r i amt).highestBidder ∧
          (handleRaiseBid r i amt).revealedCards = []))) ∧
    (∀ (r : Room) (i : Nat) (p : Player),
      r.phase = Phase.bidding → r.players[i]? = some p →
      p.passed = false → p.eliminated = false → (i : Int) ≠ r.highestBidder →
      r.currentBid ≤ countOnTable r →
      (((handlePass r i).phase = Phase.flipping ↔
        ((handlePass r i).currentBid = countOnTable (handlePass r i) ∨
          allPassedSpec (handlePass r i))) ∧
        ((handlePass r i).phase = Phase.flipping →
          (handlePass r i).flipsRemaining = (handlePass r i).currentBid ∧
          (handlePass r i).currentPlayer = (handlePass r i).highestBidder ∧
          (handlePass r i).revealedCards = []))) ∧
    (∀ r : Room,
      r.phase = Phase.bidding → r.currentBid ≤ countOnTable r →
      (((fireBidTimer r).phase = Phase.flipping ↔
        ((fireBidTimer r).currentBid = countOnTable (fireBidTimer r) ∨
          allPassedSpec (fireBidTimer r))) ∧
        ((fireBidTimer r).phase = Phase.flipping →
          (fireBidTimer r).flipsRemaining = (fireBidTimer r).currentBid ∧
          (fireBidTimer r).currentPlayer = (fireBidTimer r).highestBidder ∧
          (fireBidTimer r).revealedCards = []))) := by
  refine ⟨?_, ?_, ?_, ?_⟩
  · intro r i amt hph hcur hfp hpos
    rw [handleStartBid_eq r i amt hph hcur hfp]
    set rMid : Room :=
      { r with totalCoastersOnTable := countOnTable r,
               phase := Phase.bidding,
               currentBid := max 1 (min (if amt = 0 then 1 else amt) (countOnTable r)),
               highestBidder := (i : Int),
               players := r.players.map (fun pl => { pl with passed := false }),
               currentPlayer := -1 } with hrMid
    have hcotMid : countOnTable rMid = countOnTable r := by
      rw [hrMid]
      unfold countOnTable
      dsimp only
      exact sum_map_map_of_eq _ _ _ (fun p => rfl) r.players
    obtain ⟨hiff, hbid, hhb2, hpl, heff⟩ := checkBiddingEnd_spec rMid rfl
      (by rw [hcotMid]; dsimp only; omega)
    have hcot2 : countOnTable (checkBiddingEnd rMid) = countOnTable rMid :=
      countOnTable_eq_of_players _ _ hpl
    refine ⟨?_, heff⟩
    rw [hbid, hcot2, allPassedSpec_congr _ _ hpl hhb2]
    exact hiff
  · intro r i amt p hph hp hpe hel hhb hlo hhi
    rw [handleRaiseBid_eq r i amt p hph hp hpe hel hhb hlo hhi]
    set rMid : Room :=
      { r with totalCoastersOnTable := countOnTable r,
               currentBid := amt, highestBidder := (i : Int) } with hrMid
    have hcotMid : countOnTable rMid = countOnTable r := rfl
    obtain ⟨hiff, hbid, hhb2, hpl, heff⟩ := checkBiddingEnd_spec rMid hph
      (by rw [hcotMid]; dsimp only; omega)
    have hcot2 : countOnTable (checkBiddingEnd rMid) = countOnTable rMid :=
      countOnTable_eq_of_players _ _ hpl
    refine ⟨?_, heff⟩
    rw [hbid, hcot2, allPassedSpec_congr _ _ hpl hhb2]
    exact hiff
  · intro r i p hph hp hpe hel hhb hle
    rw [handlePass_eq r i p hph hp hpe hel hhb]
    set rMid : Room :=
      { r with players := modifyP r.players i (fun q => { q with passed := true }) }
      with hrMid
    have hcotMid : countOnTable rMid = countOnTable r := by
      rw [hrMid]
      exact countOnTable_modifyP r i _ (fun q => rfl)
    obtain ⟨hiff, hbid, hhb2, hpl, heff⟩ := checkBiddingEnd_spec rMid hph
      (by rw [hcotMid]; dsimp only; omega)
    have hcot2 : countOnTable (checkBiddingEnd rMid) = countOnTable rMid :=
      countOnTable_eq_of_players _ _ hpl
    refine ⟨?_, heff⟩
    rw [hbid, hcot2, allPassedSpec_congr _ _ hpl hhb2]
    exact hiff
  · intro r hph hle
    rw [fireBidTimer_eq r hph]
    have hcotMid : countOnTable (autopassAll r) = countOnTable r := by
      unfold autopassAll
      exact countOnTable_pmapIdx r _ (fun j q => by
        by_cases hc : (!q.eliminated && !q.passed && ((j : Int) != r.highestBidder)) = true
        · simp [hc]
        · simp [hc])
    obtain ⟨hiff, hbid, hhb2, hpl, heff⟩ := checkBiddingEnd_spec (autopassAll r) hph
      (by rw [hcotMid]; exact hle)
    have hcot2 : countOnTable (checkBiddingEnd (autopassAll r)) = countOnTable (autopassAll r) :=
      countOnTable_eq_of_players _ _ hpl
    refine ⟨?_, heff⟩
    rw [hbid, hcot2, allPassedSpec_congr _ _ hpl hhb2]
    exact hiff

/-- Witness for C3: the bid-deadline auto-pass in `wRoomBid` satisfies
the termination characterisation. -/
theorem C3_witness :
    ((fireBidTimer wRoomBid).phase = Phase.flipping ↔
      ((fireBidTimer wRoomBid).currentBid = countOnTable (fireBidTimer wRoomBid) ∨
        allPassedSpec (fireBidTimer wRoomBid))) ∧
    ((fireBidTimer wRoomBid).phase = Phase.flipping →
      (fireBidTimer wRoomBid).flipsRemaining = (fireBidTimer wRoomBid).currentBid ∧
      (fireBidTimer wRoomBid).currentPlayer = (fireBidTimer wRoomBid).highestBidder ∧
      (fireBidTimer wRoomBid).revealedCards = []) :=
  C3_bidding_termination.2.2.2 wRoomBid (by decide) (by decide)

/-! ### C5: penalty resolution -/

theorem doCardRemoval_spec (r : Room) (l : Nat) (c : Int) (rand : Nat) (p : Player)
    (hp : r.players[l]? = some p) :
    (doCardRemoval r l c rand).1.penaltyPlayer = -1 ∧
    (doCardRemoval r l c rand).1.nextRoundStarter = r.nextRoundStarter ∧
    (p.cards ≠ [] → ∃ q, (doCardRemoval r l c rand).1.players[l]? = some q ∧
      q.cards.length = p.cards.length - 1 ∧
      (q.cards = [] → q.eliminated = true ∧ q.hand = [] ∧ q.stack = [])) ∧
    ((doCardRemoval r l c rand).1.phase = r.phase ∨
      (doCardRemoval r l c rand).1.phase = Phase.gameover) ∧
    (aliveCount (doCardRemoval r l c rand).1 ≤ 1 →
      (doCardRemoval r l c rand).1.phase = Phase.gameover) := by
  unfold doCardRemoval
  rw [hp]
  dsimp only
  set rmIdx : Nat :=
    if 0 ≤ c ∧ c < (p.cards.length : Int) then c.toNat else rand % p.cards.length
    with hrm
  set p1 : Player :=
    if 0 < p.cards.length then { p with cards := p.cards.eraseIdx rmIdx } else p
    with hp1
  set p2 : Player :=
    if p1.cards.length = 0
    then { p1 with eliminated := true, hand := [], stack := [] }
    else p1 with hp2
  set r2 : Room :=
    { r with players := modifyP r.players l (fun _ => p2), penaltyPlayer := -1 }
    with hr2
  have hq : r2.players[l]? = some p2 := by
    rw [hr2]
    dsimp only
    rw [getElem?_modifyP_self, hp]
    rfl
  have hqlen : p.cards ≠ [] → p2.cards.length = p.cards.length - 1 := by
    intro hne
    have hpos : 0 < p.cards.length := List.length_pos.mpr hne
    have hlen1 : p1.cards.length = p.cards.length - 1 := by
      rw [hp1]
      rw [if_pos hpos]
      dsimp only
      rw [List.length_eraseIdx]
      have hidx : rmIdx < p.cards.length := by
        rw [hrm]
        by_cases hb : 0 ≤ c ∧ c < (p.cards.length : Int)
        · rw [if_pos hb]
          omega
        · rw [if_neg hb]
          exact Nat.mod_lt _ hpos
      simp [hidx]
    rw [hp2]
    by_cases hz : p1.cards.length = 0
    · rw [if_pos hz]
      dsimp only
      omega
    · rw [if_neg hz]
      exact hlen1
  have hqelim : p2.cards = [] → p2.eliminated = true ∧ p2.hand = [] ∧ p2.stack = [] := by
    intro hz
    rw [hp2]
    by_cases h0 : p1.cards.length = 0
    · rw [if_pos h0]
      exact ⟨rfl, rfl, rfl⟩
    · rw [if_neg h0]
      rw [hp2, if_neg h0] at hz
      exact absurd (by rw [hz]; rfl) h0
  by_cases halive : aliveCount r2 ≤ 1
  · rw [if_pos halive]
    unfold gameOver
    refine ⟨rfl, rfl, ?_, Or.inr rfl, fun _ => rfl⟩
    intro hne
    exact ⟨p2, hq, hqlen hne, hqelim⟩
  · rw [if_neg halive]
    refine ⟨rfl, rfl, ?_, Or.inl rfl, ?_⟩
    · intro hne
      exact ⟨p2, hq, hqlen hne, hqelim⟩
    · intro hcontra
      exact absurd hcontra halive

/-- C5: a skull reveal always penalises the bidder.  A self-skull with
more than one token left opens the explicit `penalty` phase for that
seat (the turn owner, `currentPlayer`, already being that seat) and only
that seat's discard is accepted; a self-skull with one token, or an
opponent's skull, removes exactly one of the bidder's physical tokens at
once (for every random draw), with no `penalty` phase; the next round's
starter is the bidder on a self-skull and the skull's owner otherwise; a
seat whose tokens run out is eliminated with hand and stack cleared; and
if at most one non-eliminated seat remains the game ends immediately. -/
theorem C5_penalty_resolution :
    (∀ (r : Room) (l rand : Nat) (p : Player),
      r.players[l]? = some p → 1 < p.cards.length →
      penalize r l l rand =
        ({ r with nextRoundStarter := (l : Int), phase := Phase.penalty,
                  penaltyPlayer := (l : Int) }, []) ∧
      (penalize r l l rand).1.currentPlayer = r.currentPlayer) ∧
    (∀ (r : Room) (j : Nat) (c : Int), r.penaltyPlayer ≠ (j : Int) →
      handlePenaltyDiscard r j c = (r, [])) ∧
    (∀ (r : Room) (l k rand : Nat) (p : Player),
      r.players[l]? = some p →
      ((l = k ∧ p.cards.length ≤ 1) ∨ l ≠ k) →
      (penalize r l k rand).1.nextRoundStarter =
        (if l = k then (l : Int) else (k : Int)) ∧
      (penalize r l k rand).1.penaltyPlayer = -1 ∧
      (p.cards ≠ [] → ∃ q, (penalize r l k rand).1.players[l]? = some q ∧
        q.cards.length = p.cards.length - 1 ∧
        (q.cards = [] → q.eliminated = true ∧ q.hand = [] ∧ q.stack = [])) ∧
      ((penalize r l k rand).1.phase = r.phase ∨
        (penalize r l k rand).1.phase = Phase.gameover) ∧
      (aliveCount (penalize r l k rand).1 ≤ 1 →
        (penalize r l k rand).1.phase = Phase.gameover)) := by
  refine ⟨?_, ?_, ?_⟩
  · intro r l rand p hp hlen
    have heq : penalize r l l rand =
        ({ r with nextRoundStarter := (l : Int), phase := Phase.penalty,
                  penaltyPlayer := (l : Int) }, []) := by
      unfold penalize
      dsimp only
      rw [hp]
      dsimp only
      rw [if_pos ⟨rfl, hlen⟩]
      simp
    exact ⟨heq, by rw [heq]⟩
  · intro r j c hpp
    exact handlePenaltyDiscard_noop r j c (Or.inr (Or.inl hpp))
  · intro r l k rand p hp hcase
    unfold penalize
    dsimp only
    rw [hp]
    dsimp only
    have hneg : ¬(l = k ∧ 1 < p.cards.length) := by
      rintro ⟨hlk, hgt⟩
      rcases hcase with ⟨_, hle⟩ | hne
      · omega
      · exact hne hlk
    rw [if_neg hneg]
    have hspec := doCardRemoval_spec
      { r with nextRoundStarter := if l = k then (l : Int) else (k : Int) }
      l (-1) rand p hp
    exact ⟨hspec.2.1, hspec.1, hspec.2.2.1, hspec.2.2.2.1, hspec.2.2.2.2⟩

/-- Witness for C5: in `wRoomFlip`, a self-skull with 4 tokens left opens
the `penalty` phase for seat 0, another seat's discard is rejected, and
an opponent-skull penalty hands the next round to the skull's owner. -/
theorem C5_witness :
    (penalize wRoomFlip 0 0 3 =
      ({ wRoomFlip with nextRoundStarter := 0, phase := Phase.penalty,
                        penaltyPlayer := 0 }, [])) ∧
    (handlePenaltyDiscard wRoomFlip 1 0 = (wRoomFlip, [])) ∧
    ((penalize wRoomFlip 0 1 4).1.nextRoundStarter = 1) := by
  refine ⟨?_, ?_, ?_⟩
  · exact (C5_penalty_resolution.1 wRoomFlip 0 3
      (testSeat "a" "A" [.rose, .rose, .rose, .skull] [.rose, .rose, .skull] [.rose])
      (by decide) (by decide)).1
  · exact C5_penalty_resolution.2.1 wRoomFlip 1 0 (by decide)
  · have h := (C5_penalty_resolution.2.2 wRoomFlip 0 1 4
      (testSeat "a" "A" [.rose, .rose, .rose, .skull] [.rose, .rose, .skull] [.rose])
      (by decide) (Or.inr (by decide))).1
    simpa using h

/-! ### The reachable-state invariant -/

theorem findNextActive_spec (r : Room) (start : Nat) :
    findNextActive r start = -1 ∨
    ∃ p, rget r (findNextActive r start) = some p ∧ p.eliminated = false := by
  unfold findNextActive
  dsimp only
  cases hf : (List.range r.players.length).find? (fun i =>
      match r.players[(start + i) % r.players.length]? with
      | some p => !p.eliminated
      | none => false) with
  | none => exact Or.inl rfl
  | some i =>
    right
    have hpred := List.find?_some hf
    cases hE : r.players[(start + i) % r.players.length]? with
    | none => rw [hE] at hpred; simp at hpred
    | some p =>
      rw [hE] at hpred
      refine ⟨p, ?_, by simpa using hpred⟩
      unfold rget
      rw [if_pos (Int.natCast_nonneg _)]
      simpa using hE

theorem nextActiveUnpassed_spec (r : Room) (start : Nat) :
    nextActiveUnpassed r start = -1 ∨
    ∃ p, rget r (nextActiveUnpassed r start) = some p ∧ p.eliminated = false := by
  unfold nextActiveUnpassed
  dsimp only
  cases hf : (List.range r.players.length).find? (fun k =>
      match r.players[(start + k + 1) % r.players.length]? with
      | some p => !p.eliminated && !p.passed
      | none => false) with
  | none => exact Or.inl rfl
  | some k =>
    right
    have hpred := List.find?_some hf
    cases hE : r.players[(start + k + 1) % r.players.length]? with
    | none => rw [hE] at hpred; simp at hpred
    | some p =>
      rw [hE] at hpred
      simp only [Bool.and_eq_true, Bool.not_eq_true'] at hpred
      refine ⟨p, ?_, hpred.1⟩
      unfold rget
      rw [if_pos (Int.natCast_nonneg _)]
      simpa using hE

/-- The phases during which stacks live on the table. -/
def activePhase (ph : Phase) : Prop :=
  ph = Phase.placing ∨ ph = Phase.bidding ∨ ph = Phase.flipping

/-- The inductive invariant of a started game session. -/
structure InvS (s : Sys) : Prop where
  elimClear : ∀ (i : Nat) (p : Player), s.room.players[i]? = some p →
    p.eliminated = true → p.hand = [] ∧ p.stack = []
  counts : (s.room.phase = Phase.placing ∨ s.room.phase = Phase.bidding) →
    ∀ (i : Nat) (p : Player), s.room.players[i]? = some p →
      p.eliminated = false → p.hand.length + p.stack.length = p.cards.length
  cache : activePhase s.room.phase →
    s.room.totalCoastersOnTable = countOnTable s.room
  bid : s.room.phase = Phase.bidding →
    1 ≤ s.room.currentBid ∧ s.room.currentBid ≤ countOnTable s.room
  placedAll : s.room.phase = Phase.placing → s.room.firstPlacement = false →
    ∀ (i : Nat) (p : Player), s.room.players[i]? = some p →
      p.eliminated = false → p.stack ≠ []
  curValid : s.room.phase = Phase.placing →
    s.room.currentPlayer = -1 ∨
    ∃ p, rget s.room s.room.currentPlayer = some p ∧ p.eliminated = false
  pendActive : activePhase s.room.phase → s.pending = []
  pendLen : s.pending.length ≤ 1
  pendPenalty : s.room.phase = Phase.penalty → 0 ≤ s.room.penaltyPlayer →
    s.pending = []

theorem getElem?_modifyP_cases (l : List α) (i j : Nat) (f : α → α) (p : α)
    (hp : (modifyP l i f)[j]? = some p) :
    l[j]? = some p ∨ ∃ q, l[j]? = some q ∧ p = f q := by
  by_cases hj : j = i
  · subst hj
    rw [getElem?_modifyP_self] at hp
    cases hq : l[j]? with
    | none => rw [hq] at hp; exact absurd hp (by simp)
    | some q =>
      rw [hq] at hp
      right
      refine ⟨q, rfl, ?_⟩
      injection hp with h
      exact h.symm
  · rw [getElem?_modifyP_ne _ _ _ _ hj] at hp
    exact Or.inl hp

/-- Modifying one seat in a way that leaves `eliminated`, `hand`, `stack`
and `cards` untouched (the connection-flag / identity updates) preserves
the invariant. -/
theorem invS_modify_frame (r : Room) (pend : List Pending) (i : Nat)
    (f : Player → Player)
    (hel : ∀ p, (f p).eliminated = p.eliminated)
    (hhand : ∀ p, (f p).hand = p.hand)
    (hstack : ∀ p, (f p).stack = p.stack)
    (hcards : ∀ p, (f p).cards = p.cards)
    (h : InvS ⟨r, pend⟩) :
    InvS ⟨{ r with players := modifyP r.players i f }, pend⟩ := by
  have hcot : countOnTable { r with players := modifyP r.players i f } = countOnTable r :=
    countOnTable_modifyP r i f hstack
  constructor
  · intro j p hp helim
    rcases getElem?_modifyP_cases r.players i j f p hp with hc | ⟨q, hq, rfl⟩
    · exact h.elimClear j p hc helim
    · rw [hel] at helim
      have := h.elimClear j q hq helim
      rw [hhand, hstack]
      exact this
  · intro hph j p hp helim
    rcases getElem?_modifyP_cases r.players i j f p hp with hc | ⟨q, hq, rfl⟩
    · exact h.counts hph j p hc helim
    · rw [hel] at helim
      rw [hhand, hstack, hcards]
      exact h.counts hph j q hq helim
  · intro hph
    rw [hcot]
    exact h.cache hph
  · intro hph
    rw [hcot]
    exact h.bid hph
  · intro hph hfp j p hp helim
    rcases getElem?_modifyP_cases r.players i j f p hp with hc | ⟨q, hq, rfl⟩
    · exact h.placedAll hph hfp j p hc helim
    · rw [hel] at helim
      rw [hstack]
      exact h.placedAll hph hfp j q hq helim
  · intro hph
    rcases h.curValid hph with hc | ⟨p, hp, helim⟩
    · exact Or.inl hc
    · right
      unfold rget at hp ⊢
      by_cases hge : (0 : Int) ≤ r.currentPlayer
      · rw [if_pos hge] at hp
        rw [if_pos hge]
        dsimp only at hp ⊢
        by_cases hji : r.currentPlayer.toNat = i
        · rw [hji, getElem?_modifyP_self]
          rw [hji] at hp
          rw [hp]
          exact ⟨f p, rfl, by rw [hel]; exact helim⟩
        · rw [getElem?_modifyP_ne _ _ _ _ hji]
          exact ⟨p, hp, helim⟩
      · rw [if_neg hge] at hp
        exact absurd hp (by simp)
  · exact h.pendActive
  · exact h.pendLen
  · exact h.pendPenalty

theorem inv_disconnect (s : Sys) (i : Nat) (h : InvS s) :
    InvS ⟨markDisconnected s.room i, s.pending⟩ := by
  unfold markDisconnected
  exact invS_modify_frame s.room s.pending i _
    (fun p => rfl) (fun p => rfl) (fun p => rfl) (fun p => rfl) h

theorem inv_rebind (s : Sys) (i : Nat) (sid : String) (h : InvS s) :
    InvS ⟨rebindSeat s.room i sid, s.pending⟩ := by
  unfold rebindSeat
  exact invS_modify_frame s.room s.pending i _
    (fun p => rfl) (fun p => rfl) (fun p => rfl) (fun p => rfl) h

theorem stackSum_zero (l : List Player)
    (h : ∀ (i : Nat) (p : Player), l[i]? = some p → p.stack = []) :
    (l.map (fun p => (p.stack.length : Int))).sum = 0 := by
  induction l with
  | nil => simp
  | cons a as ih =>
    have ha : a.stack = [] := h 0 a (by simp)
    simp only [List.map_cons, List.sum_cons, ha]
    simp only [List.length_nil, Nat.cast_zero, zero_add]
    exact ih (fun i p hp => h (i + 1) p (by simpa using hp))

theorem eq_singleton_of_len_le_one (l : List α) (e : α)
    (hlen : l.length ≤ 1) (hmem : e ∈ l) : l = [e] := by
  cases l with
  | nil => simp at hmem
  | cons a as =>
    cases as with
    | nil =>
      simp at hmem
      rw [hmem]
    | cons b bs => simp at hlen

theorem chooseStarter_spec (r : Room) :
    chooseStarter r = -1 ∨
    ∃ p, rget r (chooseStarter r) = some p ∧ p.eliminated = false := by
  unfold chooseStarter
  cases hns : rget r r.nextRoundStarter with
  | none => exact findNextActive_spec r _
  | some p =>
    dsimp only
    by_cases he : p.eliminated = false
    · rw [if_pos (by simp [he])]
      exact Or.inr ⟨p, hns, he⟩
    · rw [if_neg (by simp_all)]
      exact findNextActive_spec r _

theorem inv_startRound (r : Room) (pend : List Pending) (h : InvS ⟨r, pend⟩) :
    InvS ⟨startRound r, []⟩ := by
  unfold startRound
  dsimp only
  set ps : List Player := r.players.map (fun p =>
    if p.eliminated = true then p
    else { p with hand := p.cards, stack := [], passed := false }) with hps
  have hget : ∀ (j : Nat) (p : Player), ps[j]? = some p →
      ∃ q, r.players[j]? = some q ∧
        ((q.eliminated = true ∧ p = q) ∨
         (q.eliminated = false ∧
          p = { q with hand := q.cards, stack := [], passed := false })) := by
    intro j p hp
    rw [hps, List.getElem?_map] at hp
    cases hq : r.players[j]? with
    | none => rw [hq] at hp; exact absurd hp (by simp)
    | some q =>
      rw [hq] at hp
      refine ⟨q, rfl, ?_⟩
      by_cases he : q.eliminated = true
      · left
        refine ⟨he, ?_⟩
        simp only [Option.map_some', he, if_pos] at hp
        injection hp with hh
        exact hh.symm
      · right
        refine ⟨by simpa using he, ?_⟩
        simp only [Option.map_some', if_neg he] at hp
        injection hp with hh
        exact hh.symm
  have hstacks : ∀ (j : Nat) (p : Player), ps[j]? = some p → p.stack = [] := by
    intro j p hp
    rcases hget j p hp with ⟨q, hq, ⟨he, hpq⟩ | ⟨he, hpq⟩⟩
    · rw [hpq]
      exact (h.elimClear j q hq he).2
    · rw [hpq]
  constructor
  · intro j p hp helim
    rcases hget j p hp with ⟨q, hq, ⟨he, hpq⟩ | ⟨he, hpq⟩⟩
    · rw [hpq]
      exact h.elimClear j q hq he
    · rw [hpq] at helim
      simp [he] at helim
  · intro _ j p hp helim
    rcases hget j p hp with ⟨q, hq, ⟨he, hpq⟩ | ⟨he, hpq⟩⟩
    · rw [hpq] at helim
      simp [he] at helim
    · rw [hpq]
      simp
  · intro _
    show (0 : Int) = countOnTable _
    unfold countOnTable
    rw [stackSum_zero ps hstacks]
  · intro hph
    exact absurd hph (by simp)
  · intro _ hfp
    exact absurd hfp (by simp)
  · intro _
    exact chooseStarter_spec _
  · intro _
    rfl
  · simp
  · intro hph
    exact absurd hph (by simp)

theorem inv_fireNextRound (s : Sys) (hmem : Pending.nextRound ∈ s.pending)
    (h : InvS s) :
    InvS ⟨startRound s.room, s.pending.erase .nextRound⟩ := by
  have hpend : s.pending = [.nextRound] :=
    eq_singleton_of_len_le_one s.pending _ h.pendLen hmem
  rw [hpend]
  simp only [List.erase_cons_head]
  exact inv_startRound s.room s.pending ⟨h.elimClear, h.counts, h.cache, h.bid,
    h.placedAll, h.curValid, h.pendActive, h.pendLen, h.pendPenalty⟩

theorem inv_doCardRemoval (r : Room) (l : Nat) (c : Int) (rand : Nat)
    (hph : ¬activePhase r.phase)
    (hEC : ∀ (i : Nat) (p : Player), r.players[i]? = some p →
      p.eliminated = true → p.hand = [] ∧ p.stack = []) :
    InvS ⟨(doCardRemoval r l c rand).1, (doCardRemoval r l c rand).2⟩ := by
  unfold doCardRemoval
  cases hp : r.players[l]? with
  | none =>
    dsimp only
    refine ⟨hEC, ?_, ?_, ?_, ?_, ?_, fun _ => rfl, by simp, fun _ _ => rfl⟩
    · intro hc
      exact absurd (hc.elim Or.inl (fun h2 => Or.inr (Or.inl h2))) hph
    · intro hc
      exact absurd hc hph
    · intro hc
      exact absurd (Or.inr (Or.inl hc)) hph
    · intro hc
      exact absurd (Or.inl hc) hph
    · intro hc
      exact absurd (Or.inl hc) hph
  | some p =>
    dsimp only
    set rmIdx : Nat :=
      if 0 ≤ c ∧ c < (p.cards.length : Int) then c.toNat else rand % p.cards.length
      with hrm
    set p1 : Player :=
      if 0 < p.cards.length then { p with cards := p.cards.eraseIdx rmIdx } else p
      with hp1
    set p2 : Player :=
      if p1.cards.length = 0
      then { p1 with eliminated := true, hand := [], stack := [] }
      else p1
      with hp2
    have hEC2 : ∀ (j : Nat) (q : Player),
        (modifyP r.players l (fun _ => p2))[j]? = some q →
        q.eliminated = true → q.hand = [] ∧ q.stack = [] := by
      intro j q hq helim
      rcases getElem?_modifyP_cases r.players l j _ q hq with hc | ⟨q0, hq0, rfl⟩
      · exact hEC j q hc helim
      · rw [hp2] at helim ⊢
        by_cases hz : p1.cards.length = 0
        · rw [if_pos hz]
          exact ⟨rfl, rfl⟩
        · rw [if_neg hz] at helim ⊢
          rw [hp1] at helim ⊢
          by_cases hpos : 0 < p.cards.length
          · rw [if_pos hpos] at helim ⊢
            have := hEC l p hp (by simpa using helim)
            simpa using this
          · rw [if_neg hpos] at helim ⊢
            exact hEC l p hp helim
    by_cases halive : aliveCount
        { r with players := modifyP r.players l (fun _ => p2), penaltyPlayer := -1 } ≤ 1
    · rw [if_pos halive]
      refine ⟨hEC2, ?_, ?_, ?_, ?_, ?_, fun _ => rfl, by simp, ?_⟩
      · intro hc
        rcases hc with hc | hc <;> exact Phase.noConfusion hc
      · intro hc
        rcases hc with hc | hc | hc <;> exact Phase.noConfusion hc
      · intro hc
        exact Phase.noConfusion hc
      · intro hc
        exact Phase.noConfusion hc
      · intro hc
        exact Phase.noConfusion hc
      · intro hc
        exact Phase.noConfusion hc
    · rw [if_neg halive]
      refine ⟨hEC2, ?_, ?_, ?_, ?_, ?_, ?_, by simp, ?_⟩
      · intro hc
        exact absurd (hc.elim Or.inl (fun h2 => Or.inr (Or.inl h2))) hph
      · intro hc
        exact absurd hc hph
      · intro hc
        exact absurd (Or.inr (Or.inl hc)) hph
      · intro hc
        exact absurd (Or.inl hc) hph
      · intro hc
        exact absurd (Or.inl hc) hph
      · intro hc
        exact absurd hc hph
      · intro _ hge
        have h2 : (0 : Int) ≤ -1 := hge
        exact absurd h2 (by decide)

theorem inv_penaltyDiscard (s : Sys) (i : Nat) (c : Int) (h : InvS s) :
    InvS ⟨(handlePenaltyDiscard s.room i c).1,
          s.pending ++ (handlePenaltyDiscard s.room i c).2⟩ := by
  by_cases h1 : s.room.phase = Phase.penalty
  case neg =>
    rw [handlePenaltyDiscard_noop _ _ _ (Or.inl h1)]
    simpa using h
  by_cases h2 : s.room.penaltyPlayer = (i : Int)
  case neg =>
    rw [handlePenaltyDiscard_noop _ _ _ (Or.inr (Or.inl h2))]
    simpa using h
  cases hp : s.room.players[i]? with
  | none =>
    have heq : handlePenaltyDiscard s.room i c = (s.room, []) := by
      unfold handlePenaltyDiscard
      rw [if_neg (by simp [h1]), if_neg (by simp [h2]), hp]
    rw [heq]
    simpa using h
  | some p =>
    by_cases h3 : c < 0 ∨ (p.cards.length : Int) ≤ c
    · rw [handlePenaltyDiscard_noop _ _ _ (Or.inr (Or.inr (fun q hq => by
        rw [hp] at hq
        injection hq with hq
        rw [← hq]
        exact h3)))]
      simpa using h
    · have heq : handlePenaltyDiscard s.room i c = doCardRemoval s.room i c 0 := by
        unfold handlePenaltyDiscard
        rw [if_neg (by simp [h1]), if_neg (by simp [h2]), hp]
        dsimp only
        rw [if_neg h3]
      rw [heq]
      have hpend0 : s.pending = [] :=
        h.pendPenalty h1 (by rw [h2]; exact Int.natCast_nonneg i)
      rw [hpend0]
      simp only [List.nil_append]
      refine inv_doCardRemoval s.room i c 0 ?_ h.elimClear
      intro ha
      rcases ha with ha | ha | ha <;> rw [h1] at ha <;> exact Phase.noConfusion ha

theorem inv_firePenalize (s : Sys) (l k rand : Nat)
    (hmem : Pending.penalize l k ∈ s.pending) (h : InvS s) :
    InvS ⟨(penalize s.room l k rand).1,
          (s.pending.erase (.penalize l k)) ++ (penalize s.room l k rand).2⟩ := by
  have hpend : s.pending = [.penalize l k] :=
    eq_singleton_of_len_le_one _ _ h.pendLen hmem
  have hnact : ¬activePhase s.room.phase := by
    intro ha
    have h0 := h.pendActive ha
    rw [hpend] at h0
    exact absurd h0 (by simp)
  rw [hpend]
  simp only [List.erase_cons_head, List.nil_append]
  unfold penalize
  dsimp only
  cases hp : s.room.players[l]? with
  | none =>
    dsimp only
    refine ⟨h.elimClear, ?_, ?_, ?_, ?_, ?_, ?_, by simp, ?_⟩
    · intro hc
      exact absurd (hc.elim Or.inl (fun h2 => Or.inr (Or.inl h2))) hnact
    · intro hc
      exact absurd hc hnact
    · intro hc
      exact absurd (Or.inr (Or.inl hc)) hnact
    · intro hc
      exact absurd (Or.inl hc) hnact
    · intro hc
      exact absurd (Or.inl hc) hnact
    · intro hc
      exact absurd hc hnact
    · intro hc hge
      have h0 := h.pendPenalty hc hge
      rw [hpend] at h0
  | some p =>
    dsimp only
    by_cases hcase : l = k ∧ 1 < p.cards.length
    · rw [if_pos hcase]
      refine ⟨h.elimClear, ?_, ?_, ?_, ?_, ?_, fun _ => rfl, by simp, fun _ _ => rfl⟩
      · intro hc
        rcases hc with hc | hc <;> exact Phase.noConfusion hc
      · intro hc
        rcases hc with hc | hc | hc <;> exact Phase.noConfusion hc
      · intro hc
        exact Phase.noConfusion hc
      · intro hc
        exact Phase.noConfusion hc
      · intro hc
        exact Phase.noConfusion hc
    · rw [if_neg hcase]
      exact inv_doCardRemoval _ l (-1) rand hnact h.elimClear

theorem inv_fireChallenge (s : Sys) (i : Nat)
    (hmem : Pending.challenge i ∈ s.pending) (h : InvS s) :
    InvS ⟨(challengeSuccess s.room i).1,
          (s.pending.erase (.challenge i)) ++ (challengeSuccess s.room i).2⟩ := by
  have hpend : s.pending = [.challenge i] :=
    eq_singleton_of_len_le_one _ _ h.pendLen hmem
  have hnact : ¬activePhase s.room.phase := by
    intro ha
    have h0 := h.pendActive ha
    rw [hpend] at h0
    exact absurd h0 (by simp)
  rw [hpend]
  simp only [List.erase_cons_head, List.nil_append]
  unfold challengeSuccess
  dsimp only
  cases hp : s.room.players[i]? with
  | none =>
    dsimp only
    refine ⟨h.elimClear, ?_, ?_, ?_, ?_, ?_, ?_, by simp, ?_⟩
    · intro hc
      exact absurd (hc.elim Or.inl (fun h2 => Or.inr (Or.inl h2))) hnact
    · intro hc
      exact absurd hc hnact
    · intro hc
      exact absurd (Or.inr (Or.inl hc)) hnact
    · intro hc
      exact absurd (Or.inl hc) hnact
    · intro hc
      exact absurd (Or.inl hc) hnact
    · intro hc
      exact absurd hc hnact
    · intro hc hge
      have h0 := h.pendPenalty hc hge
      rw [hpend] at h0
  | some p =>
    dsimp only
    have hEC2 : ∀ (j : Nat) (q : Player),
        (modifyP s.room.players i
          (fun _ => { p with wins := p.wins + 1 }))[j]? = some q →
        q.eliminated = true → q.hand = [] ∧ q.stack = [] := by
      intro j q hq helim
      rcases getElem?_modifyP_cases s.room.players i _ _ q hq with hc | ⟨q0, hq0, rfl⟩
      · exact h.elimClear j q hc helim
      · exact h.elimClear i p hp helim
    by_cases hwins : 2 ≤ p.wins + 1
    · rw [if_pos hwins]
      refine ⟨hEC2, ?_, ?_, ?_, ?_, ?_, fun _ => rfl, by simp, fun hc _ => ?_⟩
      · intro hc
        rcases hc with hc | hc <;> exact Phase.noConfusion hc
      · intro hc
        rcases hc with hc | hc | hc <;> exact Phase.noConfusion hc
      · intro hc
        exact Phase.noConfusion hc
      · intro hc
        exact Phase.noConfusion hc
      · intro hc
        exact Phase.noConfusion hc
      · exact absurd hc Phase.noConfusion
    · rw [if_neg hwins]
      refine ⟨hEC2, ?_, ?_, ?_, ?_, ?_, ?_, by simp, ?_⟩
      · intro hc
        exact absurd (hc.elim Or.inl (fun h2 => Or.inr (Or.inl h2))) hnact
      · intro hc
        exact absurd hc hnact
      · intro hc
        exact absurd (Or.inr (Or.inl hc)) hnact
      · intro hc
        exact absurd (Or.inl hc) hnact
      · intro hc
        exact absurd (Or.inl hc) hnact
      · intro hc
        exact absurd hc hnact
      · intro hc hge
        have h0 : ([] : List Pending) = [Pending.challenge i] :=
          (h.pendPenalty hc hge).symm.trans hpend
        exact absurd h0 (by simp)

theorem inv_checkBiddingEnd (r : Room) (hph : r.phase = Phase.bidding)
    (h : InvS ⟨r, []⟩) : InvS ⟨checkBiddingEnd r, []⟩ := by
  unfold checkBiddingEnd startFlipping
  by_cases hc : activeNonHB { r with totalCoastersOnTable := countOnTable r } = 0 ∨
      ({ r with totalCoastersOnTable := countOnTable r } : Room).totalCoastersOnTable ≤
        ({ r with totalCoastersOnTable := countOnTable r } : Room).currentBid
  · rw [if_pos hc]
    refine ⟨h.elimClear, ?_, fun _ => rfl, ?_, ?_, ?_, fun _ => rfl, by simp,
      fun hcp _ => ?_⟩
    · intro hcp
      rcases hcp with hcp | hcp <;> exact Phase.noConfusion hcp
    · intro hcp
      exact Phase.noConfusion hcp
    · intro hcp _
      exact Phase.noConfusion hcp
    · intro hcp
      exact Phase.noConfusion hcp
    · exact Phase.noConfusion hcp
  · rw [if_neg hc]
    refine ⟨h.elimClear, ?_, fun _ => rfl, ?_, ?_, ?_, fun _ => rfl, by simp,
      fun hcp _ => ?_⟩
    · intro _ j p hp helim
      exact h.counts (Or.inr hph) j p hp helim
    · intro _
      exact h.bid hph
    · intro hcp
      exact Phase.noConfusion (hph.symm.trans hcp)
    · intro hcp
      exact Phase.noConfusion (hph.symm.trans hcp)
    · exact Phase.noConfusion (hph.symm.trans hcp)

/-- Indexed-map analogue of `invS_modify_frame`. -/
theorem invS_pmapIdx_frame (r : Room) (pend : List Pending)
    (f : Nat → Player → Player)
    (hel : ∀ i p, (f i p).eliminated = p.eliminated)
    (hhand : ∀ i p, (f i p).hand = p.hand)
    (hstack : ∀ i p, (f i p).stack = p.stack)
    (hcards : ∀ i p, (f i p).cards = p.cards)
    (h : InvS ⟨r, pend⟩) :
    InvS ⟨{ r with players := pmapIdx f r.players }, pend⟩ := by
  have hcot : countOnTable { r with players := pmapIdx f r.players } = countOnTable r :=
    countOnTable_pmapIdx r f hstack
  have hget : ∀ (j : Nat) (p : Player),
      (pmapIdx f r.players)[j]? = some p →
      ∃ q, r.players[j]? = some q ∧ p = f j q := by
    intro j p hp
    rw [getElem?_pmapIdx] at hp
    cases hq : r.players[j]? with
    | none => rw [hq] at hp; exact absurd hp (by simp)
    | some q =>
      rw [hq] at hp
      injection hp with hp
      exact ⟨q, rfl, hp.symm⟩
  constructor
  · intro j p hp helim
    obtain ⟨q, hq, rfl⟩ := hget j p hp
    rw [hel] at helim
    rw [hhand, hstack]
    exact h.elimClear j q hq helim
  · intro hph j p hp helim
    obtain ⟨q, hq, rfl⟩ := hget j p hp
    rw [hel] at helim
    rw [hhand, hstack, hcards]
    exact h.counts hph j q hq helim
  · intro hph
    rw [hcot]
    exact h.cache hph
  · intro hph
    rw [hcot]
    exact h.bid hph
  · intro hph hfp j p hp helim
    obtain ⟨q, hq, rfl⟩ := hget j p hp
    rw [hel] at helim
    rw [hstack]
    exact h.placedAll hph hfp j q hq helim
  · intro hph
    rcases h.curValid hph with hc | ⟨p, hp, helim⟩
    · exact Or.inl hc
    · right
      unfold rget at hp ⊢
      by_cases hge : (0 : Int) ≤ r.currentPlayer
      · rw [if_pos hge] at hp
        rw [if_pos hge]
        dsimp only at hp ⊢
        rw [getElem?_pmapIdx, hp]
        exact ⟨f r.currentPlayer.toNat p, rfl, by rw [hel]; exact helim⟩
      · rw [if_neg hge] at hp
        exact absurd hp (by simp)
  · exact h.pendActive
  · exact h.pendLen
  · exact h.pendPenalty

theorem one_le_countOnTable (r : Room) (i : Nat) (p : Player)
    (hp : r.players[i]? = some p) (hne : p.stack ≠ []) :
    1 ≤ countOnTable r := by
  have hmem : p ∈ r.players := List.getElem?_mem hp
  have hmem2 : (p.stack.length : Int) ∈
      r.players.map (fun q => (q.stack.length : Int)) :=
    List.mem_map_of_mem _ hmem
  have hle : (p.stack.length : Int) ≤ countOnTable r := by
    unfold countOnTable
    refine List.single_le_sum ?_ _ hmem2
    intro x hx
    simp only [List.mem_map] at hx
    obtain ⟨q, _, rfl⟩ := hx
    positivity
  have hpos : 1 ≤ (p.stack.length : Int) := by
    have := List.length_pos.mpr hne
    omega
  omega

theorem inv_pass (s : Sys) (i : Nat) (h : InvS s) :
    InvS ⟨handlePass s.room i, s.pending⟩ := by
  by_cases h1 : s.room.phase = Phase.bidding
  case neg =>
    rw [handlePass_noop _ _ (Or.inl h1)]
    simpa using h
  cases hp : s.room.players[i]? with
  | none =>
    have heq : handlePass s.room i = s.room := by
      unfold handlePass
      rw [if_neg (by simp [h1]), hp]
    rw [heq]
    simpa using h
  | some p =>
    by_cases h2 : p.passed = true ∨ p.eliminated = true
    · rw [handlePass_noop _ _ (Or.inr (Or.inl (fun q hq => by
        rw [hp] at hq
        injection hq with hq
        rw [← hq]
        exact h2)))]
      simpa using h
    · push_neg at h2
      by_cases h3 : (i : Int) = s.room.highestBidder
      · rw [handlePass_noop _ _ (Or.inr (Or.inr h3))]
        simpa using h
      · have hpend0 : s.pending = [] := h.pendActive (Or.inr (Or.inl h1))
        rw [handlePass_eq s.room i p h1 hp (by simpa using h2.1)
          (by simpa using h2.2) h3, hpend0]
        refine inv_checkBiddingEnd _ h1 ?_
        refine invS_modify_frame s.room [] i _
          (fun q => rfl) (fun q => rfl) (fun q => rfl) (fun q => rfl) ?_
        rw [← hpend0]
        exact h

theorem inv_raise (s : Sys) (i : Nat) (amt : Int) (h : InvS s) :
    InvS ⟨handleRaiseBid s.room i amt, s.pending⟩ := by
  by_cases h1 : s.room.phase = Phase.bidding
  case neg =>
    have heq : handleRaiseBid s.room i amt = s.room := by
      unfold handleRaiseBid
      rw [if_pos (by simp [h1])]
    rw [heq]
    simpa using h
  have hcache : s.room.totalCoastersOnTable = countOnTable s.room :=
    h.cache (Or.inr (Or.inl h1))
  cases hp : s.room.players[i]? with
  | none =>
    have heq : handleRaiseBid s.room i amt = s.room := by
      unfold handleRaiseBid
      rw [if_neg (by simp [h1]), hp]
    rw [heq]
    simpa using h
  | some p =>
    by_cases h2 : p.passed = true ∨ p.eliminated = true
    · rw [handleRaiseBid_noop _ _ _ hcache (Or.inr (Or.inl (fun q hq => by
        rw [hp] at hq
        injection hq with hq
        rw [← hq]
        exact h2)))]
      simpa using h
    push_neg at h2
    by_cases h3 : (i : Int) = s.room.highestBidder
    · rw [handleRaiseBid_noop _ _ _ hcache (Or.inr (Or.inr (Or.inl h3)))]
      simpa using h
    by_cases h4 : amt ≤ s.room.currentBid
    · rw [handleRaiseBid_noop _ _ _ hcache (Or.inr (Or.inr (Or.inr (Or.inl h4))))]
      simpa using h
    by_cases h5 : countOnTable s.room < amt
    · rw [handleRaiseBid_noop _ _ _ hcache (Or.inr (Or.inr (Or.inr (Or.inr h5))))]
      simpa using h
    push_neg at h4 h5
    have hpend0 : s.pending = [] := h.pendActive (Or.inr (Or.inl h1))
    obtain ⟨hb1, hb2⟩ := h.bid h1
    rw [handleRaiseBid_eq s.room i amt p h1 hp (by simpa using h2.1)
      (by simpa using h2.2) h3 h4 h5, hpend0]
    refine inv_checkBiddingEnd _ h1 ?_
    refine ⟨h.elimClear, ?_, fun _ => rfl, ?_, ?_, ?_, fun _ => rfl, by simp, ?_⟩
    · intro _ j q hq helim
      exact h.counts (Or.inr h1) j q hq helim
    · intro _
      refine ⟨?_, ?_⟩
      · show (1 : Int) ≤ amt
        omega
      · show amt ≤ countOnTable s.room
        exact h5
    · intro hcp _
      exact Phase.noConfusion (h1.symm.trans hcp)
    · intro hcp
      exact Phase.noConfusion (h1.symm.trans hcp)
    · intro hcp _
      exact Phase.noConfusion (h1.symm.trans hcp)

theorem inv_startBid (s : Sys) (i : Nat) (amt : Int) (h : InvS s) :
    InvS ⟨handleStartBid s.room i amt, s.pending⟩ := by
  by_cases h1 : s.room.phase = Phase.placing
  case neg =>
    rw [handleStartBid_noop _ _ _ (Or.inl h1)]
    simpa using h
  by_cases h2 : s.room.currentPlayer = (i : Int)
  case neg =>
    rw [handleStartBid_noop _ _ _ (Or.inr (Or.inl h2))]
    simpa using h
  by_cases h3 : s.room.firstPlacement = true
  · rw [handleStartBid_noop _ _ _ (Or.inr (Or.inr h3))]
    simpa using h
  have hfp : s.room.firstPlacement = false := by simpa using h3
  have hpx : ∃ p, s.room.players[i]? = some p ∧ p.eliminated = false := by
    rcases h.curValid h1 with hc | ⟨p, hpv, helim⟩
    · have : (i : Int) = -1 := h2.symm.trans hc
      omega
    · rw [h2] at hpv
      unfold rget at hpv
      rw [if_pos (Int.natCast_nonneg _)] at hpv
      refine ⟨p, ?_, helim⟩
      simpa using hpv
  obtain ⟨p, hp, helim⟩ := hpx
  have hstack : p.stack ≠ [] := h.placedAll h1 hfp i p hp helim
  have hcot1 : 1 ≤ countOnTable s.room := one_le_countOnTable s.room i p hp hstack
  have hpend0 : s.pending = [] := h.pendActive (Or.inl h1)
  rw [handleStartBid_eq s.room i amt h1 h2 hfp, hpend0]
  refine inv_checkBiddingEnd _ rfl ?_
  have hgetm : ∀ (j : Nat) (q : Player),
      (s.room.players.map (fun pl => { pl with passed := false }))[j]? = some q →
      ∃ q0, s.room.players[j]? = some q0 ∧ q = { q0 with passed := false } := by
    intro j q hq
    rw [List.getElem?_map] at hq
    cases hq0 : s.room.players[j]? with
    | none => rw [hq0] at hq; exact absurd hq (by simp)
    | some q0 =>
      rw [hq0] at hq
      injection hq with hq
      exact ⟨q0, rfl, hq.symm⟩
  refine ⟨?_, ?_, ?_, ?_, ?_, ?_, fun _ => rfl, by simp, ?_⟩
  · intro j q hq helim2
    obtain ⟨q0, hq0, rfl⟩ := hgetm j q hq
    have := h.elimClear j q0 hq0 (by simpa using helim2)
    simpa using this
  · intro _ j q hq helim2
    obtain ⟨q0, hq0, rfl⟩ := hgetm j q hq
    have := h.counts (Or.inl h1) j q0 hq0 (by simpa using helim2)
    simpa using this
  · intro _
    show countOnTable s.room = countOnTable _
    unfold countOnTable
    dsimp only
    exact (sum_map_map_of_eq (fun q => (q.stack.length : Int))
      (fun pl => { pl with passed := false })
      (fun q => (q.stack.length : Int)) (fun q => rfl) s.room.players).symm
  · intro _
    have hcnt : countOnTable { s.room with
        totalCoastersOnTable := countOnTable s.room,
        phase := Phase.bidding,
        currentBid := max 1 (min (if amt = 0 then 1 else amt) (countOnTable s.room)),
        highestBidder := (i : Int),
        players := s.room.players.map (fun pl => { pl with passed := false }),
        currentPlayer := -1 } = countOnTable s.room := by
      unfold countOnTable
      dsimp only
      exact sum_map_map_of_eq (fun q => (q.stack.length : Int))
        (fun pl => { pl with passed := false })
        (fun q => (q.stack.length : Int)) (fun q => rfl) s.room.players
    rw [hcnt]
    constructor
    · show (1 : Int) ≤ max 1 (min (if amt = 0 then 1 else amt) (countOnTable s.room))
      omega
    · show max 1 (min (if amt = 0 then 1 else amt) (countOnTable s.room)) ≤
        countOnTable s.room
      by_cases hz : amt = 0 <;> simp [hz] <;> omega
  · intro hcp _
    exact Phase.noConfusion hcp
  · intro hcp
    exact Phase.noConfusion hcp
  · intro hcp _
    exact Phase.noConfusion hcp

theorem inv_bidTimeout (s : Sys) (h : InvS s) :
    InvS ⟨fireBidTimer s.room, s.pending⟩ := by
  by_cases h1 : s.room.phase = Phase.bidding
  case neg =>
    have heq : fireBidTimer s.room = s.room := by
      unfold fireBidTimer
      rw [if_pos (by simp [h1])]
    rw [heq]
    simpa using h
  have hpend0 : s.pending = [] := h.pendActive (Or.inr (Or.inl h1))
  rw [fireBidTimer_eq _ h1, hpend0]
  refine inv_checkBiddingEnd _ h1 ?_
  unfold autopassAll
  refine invS_pmapIdx_frame s.room [] _
    (fun j q => by split <;> rfl)
    (fun j q => by split <;> rfl)
    (fun j q => by split <;> rfl)
    (fun j q => by split <;> rfl) ?_
  rw [← hpend0]
  exact h

theorem getElem?_modifyP_cases2 (l : List α) (i j : Nat) (f : α → α) (p : α)
    (hp : (modifyP l i f)[j]? = some p) :
    (j ≠ i ∧ l[j]? = some p) ∨ (j = i ∧ ∃ q, l[i]? = some q ∧ p = f q) := by
  by_cases hj : j = i
  · subst hj
    rw [getElem?_modifyP_self] at hp
    cases hq : l[j]? with
    | none => rw [hq] at hp; exact absurd hp (by simp)
    | some q =>
      rw [hq] at hp
      injection hp with hp
      exact Or.inr ⟨rfl, q, rfl, hp.symm⟩
  · rw [getElem?_modifyP_ne _ _ _ _ hj] at hp
    exact Or.inl ⟨hj, hp⟩

theorem inv_advancePlacing (r : Room) (pend : List Pending) (h : InvS ⟨r, pend⟩) :
    InvS ⟨advancePlacing r, pend⟩ := by
  refine ⟨h.elimClear, h.counts, h.cache, h.bid, h.placedAll, ?_,
    h.pendActive, h.pendLen, h.pendPenalty⟩
  intro _
  unfold advancePlacing
  dsimp only
  by_cases h0 : nextActiveUnpassed r r.currentPlayer.toNat = -1
  · rw [if_pos h0]
    rcases findNextActive_spec r 0 with hc | ⟨p, hp, helim⟩
    · exact Or.inl hc
    · exact Or.inr ⟨p, hp, helim⟩
  · rw [if_neg h0]
    rcases nextActiveUnpassed_spec r r.currentPlayer.toNat with hc | ⟨p, hp, helim⟩
    · exact absurd hc h0
    · exact Or.inr ⟨p, hp, helim⟩

theorem inv_place (s : Sys) (i : Nat) (c : Int) (h : InvS s) :
    InvS ⟨handlePlace s.room i c, s.pending⟩ := by
  by_cases h1 : s.room.phase = Phase.placing
  case neg =>
    rw [handlePlace_noop _ _ _ (Or.inl h1)]
    simpa using h
  by_cases h2 : s.room.currentPlayer = (i : Int)
  case neg =>
    rw [handlePlace_noop _ _ _ (Or.inr (Or.inl h2))]
    simpa using h
  cases hp : s.room.players[i]? with
  | none =>
    have heq : handlePlace s.room i c = s.room := by
      unfold handlePlace
      rw [if_neg (by simp [h1]), if_neg (by simp [h2]), hp]
    rw [heq]
    simpa using h
  | some p =>
    by_cases h3 : c < 0 ∨ (p.hand.length : Int) ≤ c
    · rw [handlePlace_noop _ _ _ (Or.inr (Or.inr (fun q hq => by
        rw [hp] at hq
        injection hq with hq
        rw [← hq]
        exact h3)))]
      simpa using h
    push_neg at h3
    obtain ⟨hc0, hcl⟩ := h3
    have hflt : c.toNat < p.hand.length := by omega
    obtain ⟨card, hcard⟩ : ∃ card, p.hand[c.toNat]? = some card :=
      ⟨p.hand[c.toNat], List.getElem?_eq_getElem hflt⟩
    have helimp : p.eliminated = false := by
      by_contra hx
      have hx' : p.eliminated = true := by simpa using hx
      have hh := (h.elimClear i p hp hx').1
      rw [hh] at hcl
      simp at hcl
      omega
    have hpend0 : s.pending = [] := h.pendActive (Or.inl h1)
    unfold handlePlace
    rw [if_neg (by simp [h1]), if_neg (by simp [h2]), hp]
    dsimp only
    rw [if_neg (by push_neg; exact ⟨hc0, hcl⟩), hcard]
    dsimp only
    apply inv_advancePlacing
    set f : Player → Player := fun q =>
      { q with hand := q.hand.eraseIdx c.toNat, stack := q.stack ++ [card] } with hf
    have hEC3 : ∀ (j : Nat) (q : Player), (modifyP s.room.players i f)[j]? = some q →
        q.eliminated = true → q.hand = [] ∧ q.stack = [] := by
      intro j q hq he
      rcases getElem?_modifyP_cases2 _ _ _ _ _ hq with ⟨_, hq2⟩ | ⟨_, q0, hq0, rfl⟩
      · exact h.elimClear j q hq2 he
      · rw [hp] at hq0
        injection hq0 with hq0
        subst hq0
        have he2 : p.eliminated = true := he
        rw [helimp] at he2
        exact absurd he2 (by simp)
    have hCN3 : ∀ (j : Nat) (q : Player), (modifyP s.room.players i f)[j]? = some q →
        q.eliminated = false → q.hand.length + q.stack.length = q.cards.length := by
      intro j q hq he
      rcases getElem?_modifyP_cases2 _ _ _ _ _ hq with ⟨_, hq2⟩ | ⟨_, q0, hq0, rfl⟩
      · exact h.counts (Or.inl h1) j q hq2 he
      · rw [hp] at hq0
        injection hq0 with hq0
        subst hq0
        have hpre := h.counts (Or.inl h1) i p hp helimp
        show (p.hand.eraseIdx c.toNat).length + (p.stack ++ [card]).length = p.cards.length
        rw [List.length_eraseIdx, List.length_append]
        simp [hflt]
        omega
    have hCV3 : ∀ r' : Room, r'.players = modifyP s.room.players i f →
        r'.currentPlayer = s.room.currentPlayer →
        r'.currentPlayer = -1 ∨
        ∃ q, rget r' r'.currentPlayer = some q ∧ q.eliminated = false := by
      intro r' hpl hcur
      right
      refine ⟨f p, ?_, helimp⟩
      rw [hcur, h2]
      unfold rget
      rw [if_pos (Int.natCast_nonneg _)]
      rw [hpl]
      simp only [Int.toNat_natCast]
      rw [getElem?_modifyP_self, hp]
      rfl
    by_cases hall : (modifyP s.room.players i f).all
        (fun pl => pl.eliminated || !pl.stack.isEmpty) = true
    · rw [if_pos hall]
      refine ⟨hEC3, fun _ => hCN3, fun _ => rfl, ?_, ?_, ?_,
        fun _ => hpend0, h.pendLen, ?_⟩
      · intro hcp
        exact absurd (h1.symm.trans hcp) (by simp)
      · intro _ _ j q hq he
        rw [List.all_eq_true] at hall
        have := hall q (List.getElem?_mem hq)
        simp only [Bool.or_eq_true, Bool.not_eq_true'] at this
        rcases this with hh | hh
        · rw [he] at hh
          exact absurd hh (by simp)
        · intro hz
          rw [hz] at hh
          simp at hh
      · intro _
        exact hCV3 _ rfl rfl
      · intro hcp
        exact absurd (h1.symm.trans hcp) (by simp)
    · rw [if_neg hall]
      refine ⟨hEC3, fun _ => hCN3, fun _ => rfl, ?_, ?_, ?_,
        fun _ => hpend0, h.pendLen, ?_⟩
      · intro hcp
        exact absurd (h1.symm.trans hcp) (by simp)
      · intro _ hfp j q hq he
        rcases getElem?_modifyP_cases2 _ _ _ _ _ hq with ⟨_, hq2⟩ | ⟨_, q0, hq0, rfl⟩
        · exact h.placedAll h1 hfp j q hq2 he
        · show ¬(q0.stack ++ [card] = [])
          simp
      · intro _
        exact hCV3 _ rfl rfl
      · intro hcp
        exact absurd (h1.symm.trans hcp) (by simp)

theorem inv_flip (s : Sys) (i : Nat) (t : Int) (h : InvS s) :
    InvS ⟨(handleFlip s.room i t).1, s.pending ++ (handleFlip s.room i t).2⟩ := by
  by_cases h1 : s.room.phase = Phase.flipping
  case neg =>
    rw [handleFlip_noop _ _ _ (Or.inl h1)]
    simpa using h
  cases hfl : flipLegalSpec s.room i t with
  | false =>
    rw [handleFlip_noop _ _ _ (Or.inr hfl)]
    simpa using h
  | true =>
  have hpend0 : s.pending = [] := h.pendActive (Or.inr (Or.inr h1))
  cases hE : rget s.room t with
  | none =>
    rw [flipLegalSpec, hE] at hfl
    simp at hfl
  | some tp =>
    have ht0 : 0 ≤ t := by
      by_contra hlt
      simp [rget, hlt] at hE
    cases hF : s.room.players[i]? with
    | none =>
      have heq : handleFlip s.room i t = (s.room, []) := by
        unfold handleFlip
        by_cases g1 : s.room.phase ≠ Phase.flipping
        · rw [if_pos g1]
        rw [if_neg g1]
        by_cases g2 : s.room.flipsRemaining ≤ 0
        · rw [if_pos g2]
        rw [if_neg g2]
        by_cases g3 : (i : Int) ≠ s.room.highestBidder
        · rw [if_pos g3]
        rw [if_neg g3]
        by_cases g4 : s.room.currentPlayer ≠ (i : Int)
        · rw [if_pos g4]
        rw [if_neg g4, hE]
        dsimp only
        by_cases g5 : tp.eliminated = true
        · rw [if_pos g5]
        rw [if_neg g5]
        by_cases g6 : tp.stack.isEmpty = true
        · rw [if_pos g6]
        rw [if_neg g6, hF]
      rw [heq]
      simpa using h
    | some fp =>
      rw [flipLegalSpec, hE, hF] at hfl
      simp only [Bool.and_eq_true, Bool.or_eq_true, beq_iff_eq,
        decide_eq_true_eq, Bool.not_eq_true'] at hfl
      obtain ⟨⟨⟨⟨hhb, hcur⟩, hfr⟩, helimt, hstk⟩, hlast⟩ := hfl
      obtain ⟨card, hcard⟩ : ∃ ccc, tp.stack.getLast? = some ccc := by
        cases hc : tp.stack.getLast? with
        | none =>
          rw [List.getLast?_eq_none_iff] at hc
          rw [hc] at hstk
          simp at hstk
        | some ccc => exact ⟨ccc, rfl⟩
      unfold handleFlip
      rw [if_neg (by simp [h1]), if_neg (by omega), if_neg (by simp [hhb]),
        if_neg (by simp [hcur]), hE]
      dsimp only
      rw [if_neg (by simp [helimt]), if_neg (by simp [hstk]), hF]
      dsimp only
      have hrej : ¬(t ≠ (i : Int) ∧ ¬fp.stack.isEmpty = true) := by
        rw [not_and_or]
        rcases hlast with hl | hl
        · left
          simp [hl]
        · right
          simp [hl]
      rw [if_neg hrej, hcard]
      dsimp only
      rw [hpend0]
      set f : Player → Player := fun q => { q with stack := q.stack.dropLast } with hfdef
      have hEC3 : ∀ (j : Nat) (q : Player),
          (modifyP s.room.players t.toNat f)[j]? = some q →
          q.eliminated = true → q.hand = [] ∧ q.stack = [] := by
        intro j q hq he
        rcases getElem?_modifyP_cases2 _ _ _ _ _ hq with ⟨_, hq2⟩ | ⟨_, q0, hq0, rfl⟩
        · exact h.elimClear j q hq2 he
        · have htp : s.room.players[t.toNat]? = some tp := by
            simpa [rget, ht0] using hE
          rw [htp] at hq0
          injection hq0 with hq0
          subst hq0
          have he2 : tp.eliminated = true := he
          rw [helimt] at he2
          exact absurd he2 (by simp)
      by_cases hsk : card = Card.skull
      · rw [if_pos hsk]
        simp only [List.nil_append]
        refine ⟨hEC3, ?_, ?_, ?_, ?_, ?_, ?_, by simp, ?_⟩
        · intro hcp
          rcases hcp with hcp | hcp <;> exact Phase.noConfusion hcp
        · intro hcp
          rcases hcp with hcp | hcp | hcp <;> exact Phase.noConfusion hcp
        · intro hcp
          exact Phase.noConfusion hcp
        · intro hcp
          exact Phase.noConfusion hcp
        · intro hcp
          exact Phase.noConfusion hcp
        · intro hcp
          rcases hcp with hcp | hcp | hcp <;> exact Phase.noConfusion hcp
        · intro hcp
          exact Phase.noConfusion hcp
      · rw [if_neg hsk]
        by_cases hfin : s.room.flipsRemaining - 1 ≤ 0
        · rw [if_pos hfin]
          simp only [List.nil_append]
          refine ⟨hEC3, ?_, ?_, ?_, ?_, ?_, ?_, by simp, ?_⟩
          · intro hcp
            rcases hcp with hcp | hcp <;> exact Phase.noConfusion hcp
          · intro hcp
            rcases hcp with hcp | hcp | hcp <;> exact Phase.noConfusion hcp
          · intro hcp
            exact Phase.noConfusion hcp
          · intro hcp
            exact Phase.noConfusion hcp
          · intro hcp
            exact Phase.noConfusion hcp
          · intro hcp
            rcases hcp with hcp | hcp | hcp <;> exact Phase.noConfusion hcp
          · intro hcp
            exact Phase.noConfusion hcp
        · rw [if_neg hfin]
          simp only [List.append_nil]
          refine ⟨hEC3, ?_, fun _ => rfl, ?_, ?_, ?_, fun _ => rfl, by simp, ?_⟩
          · intro hcp
            rcases hcp with hcp | hcp <;>
              exact Phase.noConfusion (h1.symm.trans hcp)
          · intro hcp
            exact Phase.noConfusion (h1.symm.trans hcp)
          · intro hcp
            exact Phase.noConfusion (h1.symm.trans hcp)
          · intro hcp
            exact Phase.noConfusion (h1.symm.trans hcp)
          · intro hcp
            exact Phase.noConfusion (h1.symm.trans hcp)

theorem inv_step (s s' : Sys) (hstep : Step s s') (h : InvS s) : InvS s' := by
  cases hstep with
  | place i c hi => exact inv_place s i c h
  | startBid i amt hi => exact inv_startBid s i amt h
  | raiseBid i amt hi => exact inv_raise s i amt h
  | pass i hi => exact inv_pass s i h
  | flip i t hi => exact inv_flip s i t h
  | penaltyDiscard i c hi => exact inv_penaltyDiscard s i c h
  | bidTimeout => exact inv_bidTimeout s h
  | firePenalize l k rand hmem => exact inv_firePenalize s l k rand hmem h
  | fireChallenge i hmem => exact inv_fireChallenge s i hmem h
  | fireNextRound hmem => exact inv_fireNextRound s hmem h
  | disconnect i hi => exact inv_disconnect s i h
  | rebind i sid hi => exact inv_rebind s i sid h

theorem inv_init (s : Sys) (hinit : Init s) : InvS s := by
  obtain ⟨lobby, hst, hlen, hph, hns, rfl⟩ := hinit
  unfold startGame
  apply inv_startRound _ []
  constructor
  · intro j p hp helim
    rw [List.getElem?_map] at hp
    cases hq : lobby.players[j]? with
    | none => rw [hq] at hp; exact absurd hp (by simp)
    | some q =>
      rw [hq] at hp
      injection hp with hp
      rw [← hp] at helim
      exact absurd helim (by simp)
  · intro hcp
    rcases hcp with hcp | hcp <;> rw [hph] at hcp <;> exact Phase.noConfusion hcp
  · intro hcp
    rcases hcp with hcp | hcp | hcp <;> rw [hph] at hcp <;> exact Phase.noConfusion hcp
  · intro hcp
    rw [hph] at hcp
    exact Phase.noConfusion hcp
  · intro hcp
    rw [hph] at hcp
    exact Phase.noConfusion hcp
  · intro hcp
    rw [hph] at hcp
    exact Phase.noConfusion hcp
  · intro _
    rfl
  · simp
  · intro hcp
    rw [hph] at hcp
    exact Phase.noConfusion hcp

theorem inv_reachable (s : Sys) (hr : Reachable s) : InvS s := by
  obtain ⟨s0, hinit, hsteps⟩ := hr
  induction hsteps with
  | refl => exact inv_init s0 hinit
  | tail _ hstep ih => exact inv_step _ _ hstep ih

/-! ### A concrete reachable trace

A two-seat game played from the lobby: both seats place a rose, then the
starter opens the bidding (at 1, staying in `bidding`, or at the table
count 2, jumping straight to `flipping`), and in the latter branch flips
its own rose. -/

/-- A two-seat lobby as the join handler leaves it before `start-game`. -/
def wLobby : Room :=
  { code := "WXYZ",
    players := [testSeat "a" "A" [] [] [], testSeat "b" "B" [] [] []],
    hostId := "a", started := false, phase := .lobby, currentPlayer := 0,
    currentBid := 0, highestBidder := -1, flipsRemaining := 0,
    totalCoastersOnTable := 0, roundNum := 0, firstPlacement := true,
    nextRoundStarter := -1, penaltyPlayer := -1, revealedCards := [] }

/-- The session right after the host's `start-game`. -/
def wSys0 : Sys := ⟨startGame wLobby, []⟩

/-- ... after seat 0 places its first coaster. -/
def wSys1 : Sys := ⟨handlePlace wSys0.room 0 0, wSys0.pending⟩

/-- ... after seat 1 places its first coaster. -/
def wSys2 : Sys := ⟨handlePlace wSys1.room 1 0, wSys1.pending⟩

/-- ... after seat 0 opens the bidding at 1 (bidding continues). -/
def wSys3 : Sys := ⟨handleStartBid wSys2.room 0 1, wSys2.pending⟩

/-- ... after seat 0 instead opens the bidding at the table count 2
(bidding ends immediately and flipping starts). -/
def wSys3b : Sys := ⟨handleStartBid wSys2.room 0 2, wSys2.pending⟩

/-- ... after the bidder flips its own rose: a flipping-phase state. -/
def wSys4 : Sys :=
  ⟨(handleFlip wSys3b.room 0 0).1, wSys3b.pending ++ (handleFlip wSys3b.room 0 0).2⟩

theorem wSys0_reachable : Reachable wSys0 :=
  ⟨wSys0, ⟨wLobby, rfl, by decide, rfl, rfl, rfl⟩, Relation.ReflTransGen.refl⟩

theorem wSys3_reachable : Reachable wSys3 :=
  ⟨wSys0, ⟨wLobby, rfl, by decide, rfl, rfl, rfl⟩,
    Relation.ReflTransGen.tail
      (Relation.ReflTransGen.tail
        (Relation.ReflTransGen.tail Relation.ReflTransGen.refl
          (Step.place wSys0 0 0 (by decide)))
        (Step.place wSys1 1 0 (by decide)))
      (Step.startBid wSys2 0 1 (by decide))⟩

theorem wSys4_reachable : Reachable wSys4 :=
  ⟨wSys0, ⟨wLobby, rfl, by decide, rfl, rfl, rfl⟩,
    Relation.ReflTransGen.tail
      (Relation.ReflTransGen.tail
        (Relation.ReflTransGen.tail
          (Relation.ReflTransGen.tail Relation.ReflTransGen.refl
            (Step.place wSys0 0 0 (by decide)))
          (Step.place wSys1 1 0 (by decide)))
        (Step.startBid wSys2 0 2 (by decide)))
      (Step.flip wSys3b 0 0 (by decide))⟩

/-- Seat 0 of `wSys4`: it placed one of its four coasters and the flip
popped it off the stack, so hand and stack together hold only three. -/
def cexPlayer : Player :=
  { id := "a", name := "A", cards := [.rose, .rose, .rose, .skull],
    hand := [.rose, .rose, .skull], stack := [], wins := 0,
    eliminated := false, passed := false, connected := true, colorIndex := 0 }

/-- C1: the claimed conservation law over all five in-round phases is
false.  `handleFlip` pops the flipped coaster off the target's stack
without returning it to the hand, so in the reachable flipping-phase
state `wSys4` the bidder's hand and stack hold 3 + 0 coasters against 4
cards. -/
theorem C1_counterexample :
    ¬ (∀ s : Sys, Reachable s →
        (s.room.phase = Phase.placing ∨ s.room.phase = Phase.bidding ∨
         s.room.phase = Phase.flipping ∨ s.room.phase = Phase.flipResult ∨
         s.room.phase = Phase.penalty) →
        ∀ (i : Nat) (p : Player), s.room.players[i]? = some p →
          p.eliminated = false →
          p.hand.length + p.stack.length = p.cards.length) := by
  intro hclaim
  have h := hclaim wSys4 wSys4_reachable (by decide) 0 cexPlayer (by decide) rfl
  exact absurd h (by decide)

/-- C1 (amended): for every non-eliminated player, at every reachable
state in phase `placing` or `bidding`, `|hand| + |stack| = |cards|`.
(During `flipping`, `flip_result` and `penalty`, flipped coasters have
been popped from stacks without returning to hands, so the equation holds
there only up to the coasters already flipped or pending a discard.) -/
theorem C1_token_conservation :
    ∀ s : Sys, Reachable s →
      (s.room.phase = Phase.placing ∨ s.room.phase = Phase.bidding) →
      ∀ (i : Nat) (p : Player), s.room.players[i]? = some p →
        p.eliminated = false →
        p.hand.length + p.stack.length = p.cards.length :=
  fun s hr hph i p hp he => (inv_reachable s hr).counts hph i p hp he

/-- Seat 0 of `wSys0`: freshly dealt, all four coasters in hand. -/
def wPlayer0 : Player :=
  { id := "a", name := "A", cards := [.rose, .rose, .rose, .skull],
    hand := [.rose, .rose, .rose, .skull], stack := [], wins := 0,
    eliminated := false, passed := false, connected := true, colorIndex := 0 }

theorem C1_witness :
    wSys0.room.players[0]? = some wPlayer0 ∧
    wPlayer0.hand.length + wPlayer0.stack.length = wPlayer0.cards.length :=
  ⟨by decide,
    C1_token_conservation wSys0 wSys0_reachable (Or.inl (by decide)) 0
      wPlayer0 (by decide) rfl⟩

/-- C4: a raise is rejected (no state change) when the phase is not
`bidding`, the raiser has passed or is eliminated or is the highest
bidder, or the amount is not strictly above `currentBid` or exceeds the
table count (the cache hypothesis holds at every reachable state by the
third conjunct and C10); an accepted raise installs the amount as
`currentBid` and the raiser as `highestBidder`; and along every reachable
run `currentBid` stays within `[1, countOnTable]` during `bidding`. -/
theorem C4_raise_rules :
    (∀ (r : Room) (i : Nat) (amt : Int),
      r.totalCoastersOnTable = countOnTable r →
      (r.phase ≠ Phase.bidding ∨
        (∀ p, r.players[i]? = some p → p.passed = true ∨ p.eliminated = true) ∨
        (i : Int) = r.highestBidder ∨ amt ≤ r.currentBid ∨ countOnTable r < amt) →
      handleRaiseBid r i amt = r) ∧
    (∀ (r : Room) (i : Nat) (amt : Int) (p : Player),
      r.phase = Phase.bidding → r.players[i]? = some p →
      p.passed = false → p.eliminated = false → (i : Int) ≠ r.highestBidder →
      r.currentBid < amt → amt ≤ countOnTable r →
      (handleRaiseBid r i amt).currentBid = amt ∧
      (handleRaiseBid r i amt).highestBidder = (i : Int)) ∧
    (∀ s : Sys, Reachable s → s.room.phase = Phase.bidding →
      1 ≤ s.room.currentBid ∧ s.room.currentBid ≤ countOnTable s.room) := by
  refine ⟨handleRaiseBid_noop, ?_, fun s hr hph => (inv_reachable s hr).bid hph⟩
  intro r i amt p hph hp hpe hel hhb hlo hhi
  rw [handleRaiseBid_eq r i amt p hph hp hpe hel hhb hlo hhi]
  have hco : countOnTable { r with totalCoastersOnTable := countOnTable r, currentBid := amt, highestBidder := (i : Int) } = countOnTable r :=
    countOnTable_eq_of_players _ _ rfl
  have hspec := checkBiddingEnd_spec
    { r with totalCoastersOnTable := countOnTable r, currentBid := amt, highestBidder := (i : Int) }
    hph (by rw [hco]; exact hhi)
  exact ⟨hspec.2.1, hspec.2.2.1⟩

theorem C4_witness :
    (handleRaiseBid wRoomBid 1 1 = wRoomBid) ∧
    ((handleRaiseBid wRoomBid 1 2).currentBid = 2 ∧
      (handleRaiseBid wRoomBid 1 2).highestBidder = 1) ∧
    (1 ≤ wSys3.room.currentBid ∧ wSys3.room.currentBid ≤ countOnTable wSys3.room) := by
  refine ⟨?_, ?_, ?_⟩
  · exact C4_raise_rules.1 wRoomBid 1 1 (by decide)
      (Or.inr (Or.inr (Or.inr (Or.inl (by decide)))))
  · exact C4_raise_rules.2.1 wRoomBid 1 2
      (testSeat "b" "B" [.rose, .rose, .rose, .skull] [.rose, .rose, .skull] [.rose])
      (by decide) (by decide) (by decide) (by decide) (by decide) (by decide) (by decide)
  · exact C4_raise_rules.2.2 wSys3 wSys3_reachable (by decide)

/-- C10: along every reachable run, whenever the phase is `placing`,
`bidding` or `flipping` the cached `totalCoastersOnTable` equals the sum
of all players' stack lengths. -/
theorem C10_cache_consistency :
    ∀ s : Sys, Reachable s →
      (s.room.phase = Phase.placing ∨ s.room.phase = Phase.bidding ∨
        s.room.phase = Phase.flipping) →
      s.room.totalCoastersOnTable = countOnTable s.room :=
  fun s hr hph => (inv_reachable s hr).cache hph

theorem C10_witness :
    wSys4.room.phase = Phase.flipping ∧
    wSys4.room.totalCoastersOnTable = countOnTable wSys4.room :=
  ⟨by decide,
    C10_cache_consistency wSys4 wSys4_reachable (Or.inr (Or.inr (by decide)))⟩
